import Mathlib

/-!
Shallow embedding of the mgv-rewards-program reward pipeline:
the reward aggregator (`RewardProcessor`) and the Merkle commitment /
proof-serving engine (`MerkleService`), together with proofs about them.

JavaScript strings are modelled as `List Char` (the `data` of a Lean
`String`), JavaScript `bigint` as `Nat`/`Int`, the floating-point display
amounts of leaderboard records as `ℚ`, and JavaScript `Map`s as association
lists with insert-or-update-in-place semantics.  Fallible operations
(`throw` in the source) are modelled with `Except String`.

The `@openzeppelin/merkle-tree` library used by `MerkleService` is not part
of this repository's sources; following the specification it is modelled as
a binary Merkle tree over leaf hashes in a canonical, deterministic leaf
ordering, with a symbolic collision-free hash (an inductive type whose
constructors play the role of `keccak256`).
-/

set_option maxHeartbeats 1600000

namespace MgvRewards

/-- JavaScript strings are modelled as lists of characters. -/
abbrev JStr := List Char

/-- Unpack a Lean string literal into the model's string type. -/
def jstr (s : String) : JStr := s.data

/-! ### Character-level facts about `Char.toLower`

`String.prototype.toLowerCase` on the ASCII addresses handled by the service
is modelled by `List.map Char.toLower`. -/

theorem charToNat_ofNat_valid {n : Nat} (h : n.isValidChar) : (Char.ofNat n).toNat = n := by
  rw [Char.ofNat, dif_pos h]; rfl

theorem char_toLower_eq (c : Char) :
    c.toLower = if c.toNat ≥ 65 ∧ c.toNat ≤ 90 then Char.ofNat (c.toNat + 32) else c := rfl

theorem char_toLower_toLower (c : Char) : c.toLower.toLower = c.toLower := by
  by_cases h : c.toNat ≥ 65 ∧ c.toNat ≤ 90
  · have h1 : c.toLower = Char.ofNat (c.toNat + 32) := by rw [char_toLower_eq, if_pos h]
    have hv : (c.toNat + 32).isValidChar := Or.inl (by omega)
    rw [h1, char_toLower_eq, charToNat_ofNat_valid hv, if_neg (by omega)]
  · have h1 : c.toLower = c := by rw [char_toLower_eq, if_neg h]
    rw [h1, h1]

theorem map_toLower_idem (l : JStr) :
    (l.map Char.toLower).map Char.toLower = l.map Char.toLower := by
  induction l with
  | nil => rfl
  | cons c cs ih => simp [char_toLower_toLower, ih]

/-! ### Address validation (`MerkleService.validateAddress`) -/

/-- Mirror of `MerkleService.validateAddress`: throws unless the string starts
with `"0x"` and has length exactly 42; on success returns the lower-cased
string.  (The source checks nothing else — in particular it does not check
that the 40 characters after the prefix are hexadecimal digits.) -/
def validateAddress (address : JStr) : Except String JStr :=
  if (jstr "0x").isPrefixOf address && address.length == 42 then
    .ok (address.map Char.toLower)
  else
    .error "Invalid Ethereum address"

/-- The notion of hexadecimal digit used by the specification's `Address`
data model (`0-9`, `a-f`, `A-F`). -/
def isHexChar (c : Char) : Bool := c.isDigit || ('a' ≤ c && c ≤ 'f') || ('A' ≤ c && c ≤ 'F')

theorem validateAddress_ok_iff (s : JStr) :
    (∃ out, validateAddress s = .ok out) ↔ ∃ rest, s = '0' :: 'x' :: rest ∧ rest.length = 40 := by
  unfold validateAddress
  constructor
  · rintro ⟨out, hout⟩
    by_cases h : ((jstr "0x").isPrefixOf s && s.length == 42) = true
    · rw [Bool.and_eq_true] at h
      obtain ⟨hpre, hlen⟩ := h
      have hpre' : jstr "0x" <+: s := List.isPrefixOf_iff_prefix.mp hpre
      obtain ⟨rest, hrest⟩ := hpre'
      refine ⟨rest, ?_, ?_⟩
      · exact hrest.symm
      · have : s.length = 42 := by simpa using hlen
        rw [← hrest] at this
        simpa [jstr] using this
    · rw [if_neg (by simpa using h)] at hout
      cases hout
  · rintro ⟨rest, hs, hlen⟩
    subst hs
    have hcond : ((jstr "0x").isPrefixOf ('0' :: 'x' :: rest) &&
        ('0' :: 'x' :: rest).length == 42) = true := by
      rw [Bool.and_eq_true]
      constructor
      · exact List.isPrefixOf_iff_prefix.mpr ⟨rest, rfl⟩
      · simp [hlen]
    rw [if_pos hcond]
    exact ⟨_, rfl⟩

theorem validateAddress_ok_val {s out : JStr} (h : validateAddress s = .ok out) :
    out = s.map Char.toLower := by
  unfold validateAddress at h
  by_cases hc : ((jstr "0x").isPrefixOf s && s.length == 42) = true
  · rw [if_pos hc] at h; cases h; rfl
  · rw [if_neg (by simpa using hc)] at h; cases h

/-! ### Symbolic hashes

Modelled from the spec: the `@openzeppelin/merkle-tree` library used by
`MerkleService` is not part of this repository.  Its `keccak256`-based leaf
and pair hashing is modelled symbolically: `Hash.leaf` is the (double)
hash of an encoded `(account, token, amount)` tuple — with the account and
token taken case-normalized and the amount as the parsed unsigned integer,
matching the library's ABI encoding — and `Hash.node` the hash of a pair.
Constructor injectivity plays the role of collision-freeness. -/

inductive Hash where
  | leaf (account token : JStr) (amount : Nat)
  | node (a b : Hash)
deriving DecidableEq

/-- Total comparison of naturals as an `Ordering`. -/
def ncmp (a b : Nat) : Ordering := if a < b then .lt else if b < a then .gt else .eq

/-- Total comparison of characters. -/
def ccmp (a b : Char) : Ordering := ncmp a.toNat b.toNat

/-- Lexicographic comparison of strings. -/
def lcmp : JStr → JStr → Ordering
  | [], [] => .eq
  | [], _ :: _ => .lt
  | _ :: _, [] => .gt
  | a :: as, b :: bs => (ccmp a b).then (lcmp as bs)

/-- Total structural comparison of hash values (stands in for comparing hash
bytes; any fixed total comparison yields a canonical pair ordering). -/
def hcmp : Hash → Hash → Ordering
  | .leaf a t m, .leaf a2 t2 m2 => (lcmp a a2).then ((lcmp t t2).then (ncmp m m2))
  | .leaf _ _ _, .node _ _ => .lt
  | .node _ _, .leaf _ _ _ => .gt
  | .node l r, .node l2 r2 => (hcmp l l2).then (hcmp r r2)

theorem ordering_then_eq {o p : Ordering} : o.then p = .eq ↔ o = .eq ∧ p = .eq := by
  cases o <;> simp [Ordering.then]

theorem ordering_then_swap (o p : Ordering) : (o.then p).swap = o.swap.then p.swap := by
  cases o <;> rfl

theorem ncmp_eq {a b : Nat} (h : ncmp a b = .eq) : a = b := by
  unfold ncmp at h
  split at h
  · cases h
  · split at h
    · cases h
    · omega

theorem ncmp_swap (a b : Nat) : (ncmp a b).swap = ncmp b a := by
  unfold ncmp
  by_cases h1 : a < b
  · simp [h1, show ¬ b < a by omega, Ordering.swap]
  · by_cases h2 : b < a
    · simp [h1, h2, Ordering.swap]
    · simp [h1, h2, Ordering.swap]

theorem char_toNat_inj {a b : Char} (h : a.toNat = b.toNat) : a = b :=
  Char.ext (UInt32.toNat.inj h)

theorem ccmp_eq {a b : Char} (h : ccmp a b = .eq) : a = b :=
  char_toNat_inj (ncmp_eq h)

theorem ccmp_swap (a b : Char) : (ccmp a b).swap = ccmp b a := ncmp_swap _ _

theorem lcmp_eq : ∀ {a b : JStr}, lcmp a b = .eq → a = b
  | [], [], _ => rfl
  | [], _ :: _, h => by cases h
  | _ :: _, [], h => by cases h
  | a :: as, b :: bs, h => by
    rw [lcmp, ordering_then_eq] at h
    rw [ccmp_eq h.1, lcmp_eq h.2]

theorem lcmp_swap : ∀ (a b : JStr), (lcmp a b).swap = lcmp b a
  | [], [] => rfl
  | [], _ :: _ => rfl
  | _ :: _, [] => rfl
  | a :: as, b :: bs => by
    rw [lcmp, lcmp, ordering_then_swap, ccmp_swap, lcmp_swap as bs]

theorem hcmp_eq : ∀ {a b : Hash}, hcmp a b = .eq → a = b
  | .leaf _ _ _, .leaf _ _ _, h => by
    rw [hcmp, ordering_then_eq, ordering_then_eq] at h
    rw [lcmp_eq h.1, lcmp_eq h.2.1, ncmp_eq h.2.2]
  | .leaf _ _ _, .node _ _, h => by cases h
  | .node _ _, .leaf _ _ _, h => by cases h
  | .node l r, .node l2 r2, h => by
    rw [hcmp, ordering_then_eq] at h
    rw [hcmp_eq h.1, hcmp_eq h.2]

theorem hcmp_swap : ∀ (a b : Hash), (hcmp a b).swap = hcmp b a
  | .leaf _ _ _, .leaf _ _ _ => by
    rw [hcmp, hcmp, ordering_then_swap, ordering_then_swap, lcmp_swap, lcmp_swap, ncmp_swap]
  | .leaf _ _ _, .node _ _ => rfl
  | .node _ _, .leaf _ _ _ => rfl
  | .node l r, .node l2 r2 => by
    rw [hcmp, hcmp, ordering_then_swap, hcmp_swap l l2, hcmp_swap r r2]

/-- Modelled from the spec: commutative pair hashing (the library hashes the
sorted pair of child hashes, so that authentication paths need no direction
bits). -/
def hashPair (a b : Hash) : Hash :=
  match hcmp a b with
  | .gt => .node b a
  | _ => .node a b

theorem hashPair_comm (a b : Hash) : hashPair a b = hashPair b a := by
  unfold hashPair
  rcases h : hcmp a b with _ | _ | _
  · have h2 : hcmp b a = .gt := by rw [← hcmp_swap a b, h]; rfl
    rw [h2]
  · obtain rfl := hcmp_eq h
    rw [h]
  · have h2 : hcmp b a = .lt := by rw [← hcmp_swap a b, h]; rfl
    rw [h2]

theorem hashPair_inj {a b x y : Hash} (h : hashPair a b = hashPair x y) :
    (a = x ∧ b = y) ∨ (a = y ∧ b = x) := by
  unfold hashPair at h
  rcases h1 : hcmp a b with _ | _ | _ <;> rw [h1] at h <;>
    rcases h2 : hcmp x y with _ | _ | _ <;> rw [h2] at h <;>
    cases h <;> simp

/-- Every pair hash is a `node`; it can never collide with a leaf hash. -/
def Hash.isLeafKind : Hash → Bool
  | .leaf _ _ _ => true
  | .node _ _ => false

theorem hashPair_isLeafKind (a b : Hash) : (hashPair a b).isLeafKind = false := by
  unfold hashPair
  rcases h : hcmp a b with _ | _ | _ <;> rfl

/-! ### The Merkle tree model

Modelled from the spec: a binary Merkle tree over the leaf hashes; each
leaf's authentication path is the ordered list of sibling hashes from the
leaf to the root. -/

inductive MTree where
  | leaf (h : Hash)
  | node (l r : MTree)

/-- The root hash of a tree. -/
def MTree.hashOf : MTree → Hash
  | .leaf h => h
  | .node l r => hashPair l.hashOf r.hashOf

/-- The leaf hashes of a tree, left to right. -/
def MTree.leaves : MTree → List Hash
  | .leaf h => [h]
  | .node l r => l.leaves ++ r.leaves

/-- Each leaf hash paired with its authentication path, left to right. -/
def MTree.proofList : MTree → List (Hash × List Hash)
  | .leaf h => [(h, [])]
  | .node l r =>
      (l.proofList.map (fun p => (p.1, p.2 ++ [r.hashOf]))) ++
      (r.proofList.map (fun p => (p.1, p.2 ++ [l.hashOf])))

/-- Modelled from the spec: recompute the root from a leaf hash and an
authentication path (the library's `processProof`). -/
def processProof (h : Hash) (proof : List Hash) : Hash := proof.foldl hashPair h

theorem processProof_append (h : Hash) (p : List Hash) (c : Hash) :
    processProof h (p ++ [c]) = hashPair (processProof h p) c := by
  simp [processProof]

theorem proofList_map_fst (t : MTree) : t.proofList.map Prod.fst = t.leaves := by
  induction t with
  | leaf h => rfl
  | node l r ihl ihr =>
    simp only [MTree.proofList, MTree.leaves, List.map_append, List.map_map]
    rw [← ihl, ← ihr]
    rfl

/-- Soundness: every stored (leaf hash, path) pair recomputes the root. -/
theorem processProof_sound (t : MTree) :
    ∀ pr ∈ t.proofList, processProof pr.1 pr.2 = t.hashOf := by
  induction t with
  | leaf h => intro pr hpr; simp [MTree.proofList] at hpr; subst hpr; rfl
  | node l r ihl ihr =>
    intro pr hpr
    simp only [MTree.proofList, List.mem_append, List.mem_map] at hpr
    rcases hpr with ⟨q, hq, rfl⟩ | ⟨q, hq, rfl⟩
    · rw [processProof_append, ihl q hq]
      rfl
    · rw [processProof_append, ihr q hq, hashPair_comm]
      rfl

/-- Completeness: in the symbolic (collision-free) hash model, a leaf-kind
hash and path that recompute the root must be one of the stored pairs. -/
theorem processProof_complete (h : Hash) (hh : h.isLeafKind = true) (t : MTree)
    (hleafy : ∀ x ∈ t.leaves, x.isLeafKind = true) :
    ∀ p, processProof h p = t.hashOf → (h, p) ∈ t.proofList := by
  induction t with
  | leaf h0 =>
    intro p hp
    rcases List.eq_nil_or_concat p with rfl | ⟨q, c, rfl⟩
    · have : h = h0 := hp
      subst this
      simp [MTree.proofList]
    · rw [List.concat_eq_append] at hp ⊢
      rw [processProof_append] at hp
      have hn := hashPair_isLeafKind (processProof h q) c
      rw [hp] at hn
      have h0leaf : h0.isLeafKind = true := hleafy h0 (by simp [MTree.leaves])
      rw [show MTree.hashOf (.leaf h0) = h0 from rfl] at hn
      rw [hn] at h0leaf
      cases h0leaf
  | node l r ihl ihr =>
    intro p hp
    rcases List.eq_nil_or_concat p with rfl | ⟨q, c, rfl⟩
    · have : h = hashPair l.hashOf r.hashOf := hp
      rw [this, hashPair_isLeafKind] at hh
      cases hh
    · rw [List.concat_eq_append] at hp ⊢
      rw [processProof_append] at hp
      have hl : ∀ x ∈ l.leaves, x.isLeafKind = true := fun x hx =>
        hleafy x (by simp [MTree.leaves, hx])
      have hr : ∀ x ∈ r.leaves, x.isLeafKind = true := fun x hx =>
        hleafy x (by simp [MTree.leaves, hx])
      rcases hashPair_inj hp with ⟨h1, h2⟩ | ⟨h1, h2⟩
      · subst h2
        have hin := ihl hl q h1
        simp only [MTree.proofList, List.mem_append, List.mem_map]
        exact Or.inl ⟨(h, q), hin, rfl⟩
      · subst h2
        have hin := ihr hr q h1
        simp only [MTree.proofList, List.mem_append, List.mem_map]
        exact Or.inr ⟨(h, q), hin, rfl⟩

/-- Recomputing the root with the same path is injective in the leaf hash. -/
theorem processProof_inj_left : ∀ (p : List Hash) {x y : Hash},
    processProof x p = processProof y p → x = y := by
  intro p
  induction p with
  | nil => intro x y h; exact h
  | cons c cs ih =>
    intro x y h
    have h2 : hashPair x c = hashPair y c := ih h
    rcases hashPair_inj h2 with ⟨h3, _⟩ | ⟨h3, h4⟩
    · exact h3
    · rw [h3, ← h4]

/-- In a list of pairs with duplicate-free first components, the second
component is determined by the first. -/
theorem snd_unique_of_fst_nodup {α β : Type} : ∀ {l : List (α × β)},
    (l.map Prod.fst).Nodup → ∀ {a : α} {b b2 : β}, (a, b) ∈ l → (a, b2) ∈ l → b = b2 := by
  intro l
  induction l with
  | nil => intro _ a b b2 h; cases h
  | cons p ps ih =>
    intro hnd a b b2 h1 h2
    rw [List.map_cons, List.nodup_cons] at hnd
    have hfst : ∀ {x : β}, (a, x) ∈ ps → p.1 = a → False := by
      intro x hx hpa
      have : p.1 ∈ ps.map Prod.fst := by
        rw [hpa]; exact List.mem_map.mpr ⟨(a, x), hx, rfl⟩
      exact hnd.1 this
    rcases List.mem_cons.mp h1 with h1e | h1m
    · rcases List.mem_cons.mp h2 with h2e | h2m
      · exact congrArg Prod.snd (h1e.trans h2e.symm)
      · exact (hfst h2m (congrArg Prod.fst h1e).symm).elim
    · rcases List.mem_cons.mp h2 with h2e | h2m
      · exact (hfst h1m (congrArg Prod.fst h2e).symm).elim
      · exact ih hnd.2 h1m h2m

/-! ### Bottom-up tree construction -/

/-- Combine adjacent pairs of subtrees into parents (one construction level). -/
def buildLevel : List MTree → List MTree
  | [] => []
  | [t] => [t]
  | a :: b :: rest => .node a b :: buildLevel rest

/-- Build a tree from a forest, fuelled to make termination obvious;
`fuel = length` always suffices. -/
def buildUp : Nat → List MTree → Option MTree
  | _, [] => none
  | _, [t] => some t
  | 0, _ :: _ :: _ => none
  | fuel + 1, a :: b :: rest => buildUp fuel (buildLevel (a :: b :: rest))

/-- All leaves of a forest, left to right. -/
def leavesOfForest : List MTree → List Hash
  | [] => []
  | t :: ts => t.leaves ++ leavesOfForest ts

theorem buildLevel_length : ∀ ts : List MTree, (buildLevel ts).length = (ts.length + 1) / 2
  | [] => rfl
  | [_] => by simp [buildLevel]
  | a :: b :: rest => by
    simp only [buildLevel, List.length_cons, buildLevel_length rest]
    omega

theorem buildLevel_leaves : ∀ ts : List MTree, leavesOfForest (buildLevel ts) = leavesOfForest ts
  | [] => rfl
  | [_] => rfl
  | a :: b :: rest => by
    simp only [buildLevel, leavesOfForest, MTree.leaves, buildLevel_leaves rest,
      List.append_assoc]

theorem buildUp_some : ∀ (fuel : Nat) (ts : List MTree), ts ≠ [] → ts.length ≤ fuel + 1 →
    ∃ t, buildUp fuel ts = some t ∧ t.leaves = leavesOfForest ts := by
  intro fuel
  induction fuel with
  | zero =>
    intro ts hne hlen
    match ts, hne, hlen with
    | [t], _, _ => exact ⟨t, rfl, by simp [leavesOfForest]⟩
  | succ fuel ih =>
    intro ts hne hlen
    match ts with
    | [t] => exact ⟨t, rfl, by simp [leavesOfForest]⟩
    | a :: b :: rest =>
      have hlev : buildLevel (a :: b :: rest) ≠ [] := by simp [buildLevel]
      have hlevlen : (buildLevel (a :: b :: rest)).length ≤ fuel + 1 := by
        rw [buildLevel_length]
        simp only [List.length_cons] at hlen ⊢
        omega
      obtain ⟨t, ht, hleaves⟩ := ih _ hlev hlevlen
      exact ⟨t, ht, by rw [hleaves, buildLevel_leaves]⟩

/-! ### Reward validation in `createMerkleTree` -/

/-- Whether an `Except` carries a success value. -/
def exceptOk {α : Type} : Except String α → Bool
  | .ok _ => true
  | .error _ => false

/-- Input rewards (`RewardData` in `src/types/merkle`). -/
structure RewardData where
  account : JStr
  token : JStr
  amount : JStr
deriving DecidableEq

/-- A validated tree entry `[account, token, amount]`: case-normalized account
and token, amount kept as its original digit string. -/
structure VEntry where
  account : JStr
  token : JStr
  amountStr : JStr
deriving DecidableEq

/-- `BigInt(s)` on an all-digits string. -/
def parseDigits (s : JStr) : Nat := s.foldl (fun n c => n * 10 + (c.toNat - 48)) 0

/-- The amount test in `createMerkleTree`:
`/^\d+$/.test(amount)` together with `BigInt(amount) > 0`. -/
def amountOk (amount : JStr) : Bool :=
  !amount.isEmpty && amount.all Char.isDigit && decide (0 < parseDigits amount)

/-- Validation of a single reward entry, as run by the `rewards.map` callback
of `createMerkleTree` (lines 72–81 of the service). -/
def validateReward (r : RewardData) : Except String VEntry :=
  match validateAddress r.account with
  | .error e => .error e
  | .ok account =>
    match validateAddress r.token with
    | .error e => .error e
    | .ok token =>
      if amountOk r.amount then .ok ⟨account, token, r.amount⟩
      else .error "Invalid amount"

/-- `rewards.map(...)`: validates entries in order, aborting at the first
invalid one. -/
def validateRewards : List RewardData → Except String (List VEntry)
  | [] => .ok []
  | r :: rs =>
    match validateReward r with
    | .error e => .error e
    | .ok v =>
      match validateRewards rs with
      | .error e => .error e
      | .ok vs => .ok (v :: vs)

/-- The validated entry produced from a valid reward. -/
def mkV (r : RewardData) : VEntry :=
  ⟨r.account.map Char.toLower, r.token.map Char.toLower, r.amount⟩

theorem validateReward_ok_iff {r : RewardData} {v : VEntry} :
    validateReward r = .ok v ↔
      exceptOk (validateAddress r.account) = true ∧ exceptOk (validateAddress r.token) = true ∧
      amountOk r.amount = true ∧ v = mkV r := by
  unfold validateReward
  rcases ha : validateAddress r.account with ea | oa
  · simp [exceptOk]
  · rcases ht : validateAddress r.token with et | ot
    · simp [exceptOk]
    · have hoa : oa = r.account.map Char.toLower := validateAddress_ok_val ha
      have hot : ot = r.token.map Char.toLower := validateAddress_ok_val ht
      subst hoa hot
      by_cases hm : amountOk r.amount = true
      · simp only [hm, if_true, exceptOk]
        simp [mkV, eq_comm]
      · simp only [hm, if_false, exceptOk]
        simp [hm]

theorem validateRewards_ok_map : ∀ {rs : List RewardData} {vs : List VEntry},
    validateRewards rs = .ok vs → vs = rs.map mkV ∧ ∀ r ∈ rs, validateReward r = .ok (mkV r) := by
  intro rs
  induction rs with
  | nil => intro vs h; cases h; exact ⟨rfl, by intro r hr; cases hr⟩
  | cons r rs ih =>
    intro vs h
    unfold validateRewards at h
    rcases hr : validateReward r with e | v
    · rw [hr] at h; cases h
    · rw [hr] at h
      rcases hrs : validateRewards rs with e | vs2
      · rw [hrs] at h; cases h
      · rw [hrs] at h
        cases h
        obtain ⟨hmap, hall⟩ := ih hrs
        have hv : v = mkV r := (validateReward_ok_iff.mp hr).2.2.2
        subst hv
        refine ⟨by rw [hmap]; rfl, ?_⟩
        intro r2 hr2
        rcases List.mem_cons.mp hr2 with rfl | hmem
        · exact hr
        · exact hall r2 hmem

theorem validateRewards_error_of_bad {rs : List RewardData} {r : RewardData}
    (hmem : r ∈ rs) (hbad : ∀ v, validateReward r ≠ .ok v) :
    ∀ vs, validateRewards rs ≠ .ok vs := by
  intro vs h
  obtain ⟨_, hall⟩ := validateRewards_ok_map h
  exact hbad (mkV r) (hall r hmem)

/-! ### Canonical leaf ordering and the tree build -/

/-- Parsed integer amount of a validated entry (the `uint256` the library
ABI-encodes into the leaf). -/
def VEntry.amount (v : VEntry) : Nat := parseDigits v.amountStr

/-- The symbolic leaf hash of a validated entry. -/
def leafHashOf (v : VEntry) : Hash := .leaf v.account v.token v.amount

/-- Modelled from the spec: the canonical sort key of a leaf; sorting by a
total key over all fields makes the leaf ordering a function of the entry
multiset only. -/
def entryKey (v : VEntry) : Lex (JStr × Lex (JStr × JStr)) :=
  toLex (v.account, toLex (v.token, v.amountStr))

/-- The canonical leaf order. -/
def entryLE (v w : VEntry) : Prop := entryKey v ≤ entryKey w

instance : DecidableRel entryLE := fun v w =>
  inferInstanceAs (Decidable (entryKey v ≤ entryKey w))

instance : IsTotal VEntry entryLE := ⟨fun a b => le_total (entryKey a) (entryKey b)⟩

instance : IsTrans VEntry entryLE := ⟨fun _ _ _ h1 h2 => le_trans h1 h2⟩

theorem entryKey_inj {v w : VEntry} (h : entryKey v = entryKey w) : v = w := by
  unfold entryKey at h
  rw [toLex_inj] at h
  obtain ⟨h1, h2⟩ := Prod.mk.injEq .. ▸ h
  rw [toLex_inj] at h2
  obtain ⟨h3, h4⟩ := Prod.mk.injEq .. ▸ h2
  cases v; cases w
  simp only at h1 h3 h4
  simp [h1, h3, h4]

instance : IsAntisymm VEntry entryLE :=
  ⟨fun _ _ h1 h2 => entryKey_inj (le_antisymm h1 h2)⟩

/-- Modelled from the spec: the canonical, deterministic leaf ordering used
when the tree is built. -/
def sortEntries (vs : List VEntry) : List VEntry := List.insertionSort entryLE vs

/-! ### Snapshots (`data/merkle_*.json` files) -/

/-- One persisted leaf row (`MerkleEntry` in `src/types/merkle`). -/
structure MerkleEntry where
  merkleRootId : String
  account : JStr
  tokenAddress : JStr
  amount : JStr
  proof : List Hash
  leafIndex : Nat
deriving DecidableEq

/-- One persisted snapshot: the `merkleRoot` metadata object together with
its `entries` array, as written by `createMerkleTree`. -/
structure Snapshot where
  id : String
  root : Hash
  ipfsHash : Option String
  totalRewards : List (JStr × Nat)
  recipientCount : Nat
  status : String
  createdAt : Nat
  updatedAt : Option Nat
  submittedAt : Option Nat
  validAt : Option Nat
  entries : List MerkleEntry
deriving DecidableEq

/-- JavaScript `Map.get` / object indexing on an association list. -/
def aget {α β : Type} [DecidableEq α] : List (α × β) → α → Option β
  | [], _ => none
  | (k, v) :: rest, key => if k = key then some v else aget rest key

/-- JavaScript `Map.set` / object field assignment: update the existing entry
in place, else append. -/
def aset {α β : Type} [DecidableEq α] : List (α × β) → α → β → List (α × β)
  | [], key, val => [(key, val)]
  | (k, v) :: rest, key, val =>
    if k = key then (k, val) :: rest else (k, v) :: aset rest key val

theorem aget_aset_self {α β : Type} [DecidableEq α] :
    ∀ (m : List (α × β)) (k : α) (v : β), aget (aset m k v) k = some v := by
  intro m
  induction m with
  | nil => intro k v; simp [aset, aget]
  | cons p rest ih =>
    intro k v
    rcases p with ⟨k2, v2⟩
    by_cases h : k2 = k
    · subst h; simp [aset, aget]
    · simp [aset, aget, h, ih]

theorem aget_aset_ne {α β : Type} [DecidableEq α] :
    ∀ (m : List (α × β)) (k key : α) (v : β), k ≠ key →
      aget (aset m k v) key = aget m key := by
  intro m
  induction m with
  | nil => intro k key v h; simp [aset, aget, h]
  | cons p rest ih =>
    intro k key v h
    rcases p with ⟨k2, v2⟩
    by_cases h2 : k2 = k
    · subst h2; simp [aset, aget, h]
    · simp only [aset, if_neg h2, aget]
      by_cases h3 : k2 = key
      · simp [h3]
      · simp [h3, ih _ _ _ h]

/-- One step of the `totalRewards` accumulation in `createMerkleTree` (lines
96–100): `totalRewards[token] = (current + amount)` with normalized token. -/
def totalsStep (m : List (JStr × Nat)) (r : RewardData) : List (JStr × Nat) :=
  aset m (r.token.map Char.toLower)
    ((aget m (r.token.map Char.toLower)).getD 0 + parseDigits r.amount)

/-- The `totalRewards` record accumulated by `createMerkleTree`: per
normalized token, the `BigInt` sum of amounts. -/
def totalsOf (rewards : List RewardData) : List (JStr × Nat) :=
  rewards.foldl totalsStep []

/-- The `for (const [i, [account, token, amount]] of tree.entries())` loop:
one persisted row per leaf in canonical leaf order, with its proof and its
index in that order. -/
def mkEntries (rootId : String) : Nat → List VEntry → List (Hash × List Hash) → List MerkleEntry
  | _, [], _ => []
  | _, _ :: _, [] => []
  | i, v :: vs, hp :: hps =>
    { merkleRootId := rootId, account := v.account, tokenAddress := v.token,
      amount := v.amountStr, proof := hp.2, leafIndex := i } :: mkEntries rootId (i + 1) vs hps

/-- Mirror of `MerkleService.createMerkleTree`.  The fresh UUID and the
creation timestamp are effects in the source and enter as the parameters
`id` and `now`; the file write is modelled by returning the snapshot, so an
`.error` result is a run in which no snapshot is persisted.  The tree itself
is modelled from the spec (canonical leaf ordering, binary tree over the
leaf hashes, per-leaf sibling paths). -/
def createMerkleTree (rewards : List RewardData) (id : String) (now : Nat)
    (ipfsHash : Option String) : Except String Snapshot :=
  match validateRewards rewards with
  | .error e => .error e
  | .ok ventries =>
    let sorted := sortEntries ventries
    match buildUp sorted.length (sorted.map (fun v => MTree.leaf (leafHashOf v))) with
    | none => .error "Failed to create Merkle tree"
    | some t =>
      .ok
        { id := id
          root := t.hashOf
          ipfsHash := ipfsHash
          totalRewards := totalsOf rewards
          recipientCount := rewards.length
          status := "pending"
          createdAt := now
          updatedAt := none
          submittedAt := none
          validAt := none
          entries := mkEntries id 0 sorted t.proofList }

/-! ### Structural facts about `createMerkleTree` -/

theorem leavesOfForest_map_leaf (f : VEntry → Hash) :
    ∀ vs : List VEntry, leavesOfForest (vs.map (fun v => MTree.leaf (f v))) = vs.map f := by
  intro vs
  induction vs with
  | nil => rfl
  | cons v vs ih => simp [leavesOfForest, MTree.leaves, ih]

theorem sortEntries_perm (vs : List VEntry) : (sortEntries vs).Perm vs :=
  List.perm_insertionSort _ _

theorem sortEntries_eq_of_perm {vs ws : List VEntry} (h : vs.Perm ws) :
    sortEntries vs = sortEntries ws :=
  List.eq_of_perm_of_sorted
    ((List.perm_insertionSort _ _).trans (h.trans (List.perm_insertionSort _ _).symm))
    (List.sorted_insertionSort _ _) (List.sorted_insertionSort _ _)

theorem buildUp_nil (fuel : Nat) : buildUp fuel [] = none := by
  cases fuel <;> rfl

/-- Inversion of a successful `createMerkleTree` run. -/
theorem createMerkleTree_ok {rewards : List RewardData} {id : String} {now : Nat}
    {ipfs : Option String} {snap : Snapshot}
    (h : createMerkleTree rewards id now ipfs = .ok snap) :
    ∃ t : MTree,
      validateRewards rewards = .ok (rewards.map mkV) ∧
      buildUp (sortEntries (rewards.map mkV)).length
        ((sortEntries (rewards.map mkV)).map (fun v => MTree.leaf (leafHashOf v))) = some t ∧
      t.leaves = (sortEntries (rewards.map mkV)).map leafHashOf ∧
      snap = { id := id, root := t.hashOf, ipfsHash := ipfs,
               totalRewards := totalsOf rewards, recipientCount := rewards.length,
               status := "pending", createdAt := now, updatedAt := none,
               submittedAt := none, validAt := none,
               entries := mkEntries id 0 (sortEntries (rewards.map mkV)) t.proofList } := by
  unfold createMerkleTree at h
  rcases hv : validateRewards rewards with e | ventries
  · rw [hv] at h; cases h
  · rw [hv] at h
    dsimp only at h
    obtain ⟨hmap, _⟩ := validateRewards_ok_map hv
    subst hmap
    rcases hb : buildUp (sortEntries (rewards.map mkV)).length
        ((sortEntries (rewards.map mkV)).map (fun v => MTree.leaf (leafHashOf v))) with _ | t
    · rw [hb] at h; cases h
    · rw [hb] at h
      cases h
      have hne : (sortEntries (rewards.map mkV)).map (fun v => MTree.leaf (leafHashOf v)) ≠ [] := by
        intro hnil
        rw [hnil, buildUp_nil] at hb
        cases hb
      have hlen : ((sortEntries (rewards.map mkV)).map
          (fun v => MTree.leaf (leafHashOf v))).length ≤
          (sortEntries (rewards.map mkV)).length + 1 := by
        rw [List.length_map]
        omega
      obtain ⟨t2, ht2, hleaves⟩ := buildUp_some _ _ hne hlen
      rw [hb] at ht2
      cases ht2
      refine ⟨t, rfl, rfl, ?_, rfl⟩
      rw [hleaves, leavesOfForest_map_leaf]

theorem mkEntries_length (rid : String) :
    ∀ (i : Nat) (vs : List VEntry) (hps : List (Hash × List Hash)),
      vs.length ≤ hps.length → (mkEntries rid i vs hps).length = vs.length := by
  intro i vs
  induction vs generalizing i with
  | nil => intro hps _; cases hps <;> rfl
  | cons v vs ih =>
    intro hps hlen
    cases hps with
    | nil => simp at hlen
    | cons hp hps =>
      simp only [mkEntries, List.length_cons]
      rw [ih _ _ (by simpa using hlen)]

theorem mkEntries_proj (rid : String) :
    ∀ (i : Nat) (vs : List VEntry) (hps : List (Hash × List Hash)),
      vs.length ≤ hps.length →
      (mkEntries rid i vs hps).map (fun e => (e.tokenAddress, e.amount)) =
        vs.map (fun v => (v.token, v.amountStr)) := by
  intro i vs
  induction vs generalizing i with
  | nil => intro hps _; cases hps <;> rfl
  | cons v vs ih =>
    intro hps hlen
    cases hps with
    | nil => simp at hlen
    | cons hp hps =>
      simp only [mkEntries, List.map_cons]
      rw [ih _ _ (by simpa using hlen)]

theorem mkEntries_mem_zip {rid : String} :
    ∀ {i : Nat} {vs : List VEntry} {hps : List (Hash × List Hash)} {e : MerkleEntry},
      e ∈ mkEntries rid i vs hps →
      ∃ v hp, (v, hp) ∈ vs.zip hps ∧ e.account = v.account ∧ e.tokenAddress = v.token ∧
        e.amount = v.amountStr ∧ e.proof = hp.2 := by
  intro i vs
  induction vs generalizing i with
  | nil => intro hps e he; cases hps <;> cases he
  | cons v vs ih =>
    intro hps e he
    cases hps with
    | nil => cases he
    | cons hp hps =>
      rcases List.mem_cons.mp he with rfl | hmem
      · exact ⟨v, hp, List.mem_cons.mpr (Or.inl rfl), rfl, rfl, rfl, rfl⟩
      · obtain ⟨v2, hp2, hzip, h1, h2, h3, h4⟩ := ih hmem
        exact ⟨v2, hp2, List.mem_cons.mpr (Or.inr hzip), h1, h2, h3, h4⟩

/-- Positional alignment: if the first components of one list map-project
to the images of another, zipped pairs are pointwise aligned. -/
theorem zip_align {α β γ : Type} (f : α → γ) (proj : β → γ) :
    ∀ {l1 : List α} {l2 : List β}, l2.map proj = l1.map f →
      ∀ {a : α} {b : β}, (a, b) ∈ l1.zip l2 → proj b = f a := by
  intro l1
  induction l1 with
  | nil => intro l2 _ a b h; cases h
  | cons x xs ih =>
    intro l2 hmap a b h
    cases l2 with
    | nil => cases h
    | cons y ys =>
      simp only [List.map_cons, List.cons.injEq] at hmap
      rcases List.mem_cons.mp h with heq | hmem
      · obtain ⟨h1, h2⟩ := Prod.mk.injEq .. ▸ heq
        rw [h2, h1]
        exact hmap.1
      · exact ih hmap.2 hmem

/-! ### The per-token sums of `totalRewards` -/

/-- Sum of the amounts of the rewards whose normalized token equals `t`. -/
def tokenSum (rs : List RewardData) (t : JStr) : Nat :=
  ((rs.filter (fun r => decide (r.token.map Char.toLower = t))).map
    (fun r => parseDigits r.amount)).sum

theorem tokenSum_nil (t : JStr) : tokenSum [] t = 0 := rfl

theorem tokenSum_cons (r : RewardData) (rs : List RewardData) (t : JStr) :
    tokenSum (r :: rs) t =
      (if r.token.map Char.toLower = t then parseDigits r.amount else 0) + tokenSum rs t := by
  unfold tokenSum
  by_cases h : r.token.map Char.toLower = t
  · simp [h]
  · simp [h]

theorem tokenSum_eq_zero {rs : List RewardData} {t : JStr}
    (h : rs.any (fun r => decide (r.token.map Char.toLower = t)) = false) :
    tokenSum rs t = 0 := by
  unfold tokenSum
  rw [List.any_eq_false] at h
  have hnil : rs.filter (fun r => decide (r.token.map Char.toLower = t)) = [] := by
    rw [List.filter_eq_nil_iff]
    exact h
  rw [hnil]
  rfl

theorem totalsOf_fold (t : JStr) :
    ∀ (rs : List RewardData) (m : List (JStr × Nat)),
      aget (rs.foldl totalsStep m) t =
        if rs.any (fun r => decide (r.token.map Char.toLower = t))
        then some ((aget m t).getD 0 + tokenSum rs t)
        else aget m t := by
  intro rs
  induction rs with
  | nil => intro m; simp [tokenSum_nil]
  | cons r rs ih =>
    intro m
    rw [List.foldl_cons, ih]
    by_cases hr : r.token.map Char.toLower = t
    · have hstep : aget (totalsStep m r) t =
          some ((aget m t).getD 0 + parseDigits r.amount) := by
        unfold totalsStep
        rw [hr, aget_aset_self]
      have hany : (r :: rs).any (fun r => decide (r.token.map Char.toLower = t)) = true :=
        List.any_eq_true.mpr ⟨r, List.mem_cons.mpr (Or.inl rfl), by simp [hr]⟩
      rw [hany]
      by_cases hrs : rs.any (fun r => decide (r.token.map Char.toLower = t)) = true
      · rw [if_pos hrs, hstep]
        simp only [Option.getD_some]
        rw [tokenSum_cons, if_pos hr]
        congr 1
        omega
      · rw [if_neg hrs, hstep, tokenSum_cons, if_pos hr,
          tokenSum_eq_zero (by simpa using hrs)]
        simp
    · have hstep : aget (totalsStep m r) t = aget m t := by
        unfold totalsStep
        exact aget_aset_ne _ _ _ _ hr
      have hany : (r :: rs).any (fun r => decide (r.token.map Char.toLower = t)) =
          rs.any (fun r => decide (r.token.map Char.toLower = t)) := by
        simp [hr]
      rw [hany, hstep, tokenSum_cons, if_neg hr]
      simp

theorem sum_filter_of_proj_eq {l1 : List MerkleEntry} {l2 : List VEntry}
    (t : JStr)
    (h : l1.map (fun e => (e.tokenAddress, e.amount)) = l2.map (fun v => (v.token, v.amountStr))) :
    ((l1.filter (fun e => decide (e.tokenAddress = t))).map (fun e => parseDigits e.amount)).sum =
      ((l2.filter (fun v => decide (v.token = t))).map (fun v => parseDigits v.amountStr)).sum := by
  induction l1 generalizing l2 with
  | nil =>
    cases l2 with
    | nil => rfl
    | cons v vs => simp at h
  | cons e es ih =>
    cases l2 with
    | nil => simp at h
    | cons v vs =>
      simp only [List.map_cons, List.cons.injEq] at h
      have h1 : e.tokenAddress = v.token := congrArg Prod.fst h.1
      have h2 : e.amount = v.amountStr := congrArg Prod.snd h.1
      by_cases hc : v.token = t
      · simp [List.filter_cons, h1, h2, hc, ih h.2]
      · simp [List.filter_cons, h1, h2, hc, ih h.2]

theorem sum_filter_perm {l1 l2 : List VEntry} (hp : l1.Perm l2) (t : JStr) :
    ((l1.filter (fun v => decide (v.token = t))).map (fun v => parseDigits v.amountStr)).sum =
      ((l2.filter (fun v => decide (v.token = t))).map (fun v => parseDigits v.amountStr)).sum :=
  ((hp.filter _).map _).sum_eq

theorem sum_filter_map_mkV (rewards : List RewardData) (t : JStr) :
    (((rewards.map mkV).filter (fun v => decide (v.token = t))).map
        (fun v => parseDigits v.amountStr)).sum = tokenSum rewards t := by
  induction rewards with
  | nil => rfl
  | cons r rs ih =>
    rw [List.map_cons, tokenSum_cons]
    by_cases hc : r.token.map Char.toLower = t
    · simp [List.filter_cons, mkV, hc, ih]
    · simp [List.filter_cons, mkV, hc, ih]

/-- C2: for every reward list accepted by `createMerkleTree` and every token
appearing in it, the persisted snapshot satisfies
`totalRewards[token] = Σ entry.amount` over the leaf entries carrying that
(case-normalized) token, and `recipientCount` equals the number of leaf
entries in the snapshot. -/
theorem C2_snapshot_totals_and_recipient_count (rewards : List RewardData) (id : String)
    (now : Nat) (ipfs : Option String) (snap : Snapshot)
    (h : createMerkleTree rewards id now ipfs = .ok snap) :
    (∀ r ∈ rewards,
      aget snap.totalRewards (r.token.map Char.toLower) =
        some (((snap.entries.filter
            (fun e => decide (e.tokenAddress = r.token.map Char.toLower))).map
            (fun e => parseDigits e.amount)).sum)) ∧
    snap.recipientCount = snap.entries.length := by
  obtain ⟨t, hvr, hb, hleaves, rfl⟩ := createMerkleTree_ok h
  have hplen : t.proofList.length = (sortEntries (rewards.map mkV)).length := by
    have h1 : (t.proofList.map Prod.fst).length = t.leaves.length := by rw [proofList_map_fst]
    rw [List.length_map] at h1
    rw [h1, hleaves, List.length_map]
  have hslen : (sortEntries (rewards.map mkV)).length = rewards.length := by
    unfold sortEntries
    rw [List.length_insertionSort, List.length_map]
  constructor
  · intro r hr
    have htotals : aget (totalsOf rewards) (r.token.map Char.toLower) =
        some (tokenSum rewards (r.token.map Char.toLower)) := by
      unfold totalsOf
      rw [totalsOf_fold]
      have hany : rewards.any
          (fun r2 => decide (r2.token.map Char.toLower = r.token.map Char.toLower)) = true :=
        List.any_eq_true.mpr ⟨r, hr, by simp⟩
      rw [if_pos hany]
      simp [aget]
    show aget (totalsOf rewards) _ = _
    rw [htotals]
    congr 1
    have hproj := mkEntries_proj id 0 (sortEntries (rewards.map mkV)) t.proofList
      (by omega)
    rw [sum_filter_of_proj_eq _ hproj,
      sum_filter_perm (sortEntries_perm (rewards.map mkV)) _,
      sum_filter_map_mkV]
  · show rewards.length = (mkEntries id 0 (sortEntries (rewards.map mkV)) t.proofList).length
    rw [mkEntries_length _ _ _ _ (by omega), hslen]

/-- C6: `createMerkleTree` rejects any entry whose amount is not a positive
digit string or whose account or token fails address validation, aborting the
whole batch with an error; no snapshot is produced. -/
theorem C6_createMerkleTree_rejects_invalid (rewards : List RewardData) (id : String)
    (now : Nat) (ipfs : Option String) (r : RewardData) (hmem : r ∈ rewards)
    (hbad : exceptOk (validateAddress r.account) = false ∨
            exceptOk (validateAddress r.token) = false ∨ amountOk r.amount = false) :
    exceptOk (createMerkleTree rewards id now ipfs) = false := by
  rcases hres : createMerkleTree rewards id now ipfs with e | snap
  · rfl
  · exfalso
    obtain ⟨t, hvr, _, _, _⟩ := createMerkleTree_ok hres
    obtain ⟨_, hall⟩ := validateRewards_ok_map hvr
    have hfacts := validateReward_ok_iff.mp (hall r hmem)
    rcases hbad with hbd | hbd | hbd
    · rw [hfacts.1] at hbd; cases hbd
    · rw [hfacts.2.1] at hbd; cases hbd
    · rw [hfacts.2.2.1] at hbd; cases hbd

/-! ### The snapshot store (the `./data` directory) -/

/-- `loadMerkleData`: scan the stored snapshot files in order and return the
first whose root id matches. -/
def loadMerkleData : List Snapshot → String → Option Snapshot
  | [], _ => none
  | s :: rest, rootId => if s.id = rootId then some s else loadMerkleData rest rootId

/-- The scanning loop of `getLatestMerkleData`: keep the active snapshot with
the strictly greatest `createdAt` seen so far, starting from the epoch
(`new Date(0)`). -/
def getLatestAux : List Snapshot → Option Snapshot → Nat → Option Snapshot
  | [], best, _ => best
  | s :: rest, best, bestDate =>
    if s.status = "active" ∧ bestDate < s.createdAt then getLatestAux rest (some s) s.createdAt
    else getLatestAux rest best bestDate

/-- `getLatestMerkleData`: the active snapshot with the most recent
`createdAt` (ties keep the earlier file). -/
def getLatestMerkleData (store : List Snapshot) : Option Snapshot :=
  getLatestAux store none 0

/-- The snapshot resolution shared by `getProof` and `getAccountProofs`:
by root id when given, else the latest active snapshot. -/
def resolveSnap (store : List Snapshot) : Option String → Option Snapshot
  | some rootId => loadMerkleData store rootId
  | none => getLatestMerkleData store

theorem loadMerkleData_none {store : List Snapshot} {rootId : String}
    (h : ∀ s ∈ store, s.id ≠ rootId) : loadMerkleData store rootId = none := by
  induction store with
  | nil => rfl
  | cons s rest ih =>
    unfold loadMerkleData
    rw [if_neg (h s (List.mem_cons.mpr (Or.inl rfl)))]
    exact ih (fun s2 hs2 => h s2 (List.mem_cons.mpr (Or.inr hs2)))

theorem loadMerkleData_mem {store : List Snapshot} {rootId : String} {s : Snapshot}
    (h : loadMerkleData store rootId = some s) : s ∈ store ∧ s.id = rootId := by
  induction store with
  | nil => cases h
  | cons s2 rest ih =>
    unfold loadMerkleData at h
    by_cases hid : s2.id = rootId
    · rw [if_pos hid] at h
      cases h
      exact ⟨List.mem_cons.mpr (Or.inl rfl), hid⟩
    · rw [if_neg hid] at h
      obtain ⟨hmem, hs⟩ := ih h
      exact ⟨List.mem_cons.mpr (Or.inr hmem), hs⟩

theorem loadMerkleData_first {pre post : List Snapshot} {snap : Snapshot} {rootId : String}
    (hpre : ∀ s ∈ pre, s.id ≠ rootId) (hid : snap.id = rootId) :
    loadMerkleData (pre ++ snap :: post) rootId = some snap := by
  induction pre with
  | nil =>
    rw [List.nil_append]
    unfold loadMerkleData
    rw [if_pos hid]
  | cons s rest ih =>
    show loadMerkleData (s :: (rest ++ snap :: post)) rootId = some snap
    unfold loadMerkleData
    rw [if_neg (hpre s (List.mem_cons.mpr (Or.inl rfl)))]
    exact ih (fun s2 hs2 => hpre s2 (List.mem_cons.mpr (Or.inr hs2)))

/-- `updateRootStatus`'s write loop: replace the contents of the first file
whose root id matches. -/
def writeBack : List Snapshot → String → Snapshot → Option (List Snapshot)
  | [], _, _ => none
  | s :: rest, rootId, snap2 =>
    if s.id = rootId then some (snap2 :: rest)
    else (writeBack rest rootId snap2).map (fun l => s :: l)

theorem writeBack_first {pre post : List Snapshot} {snap : Snapshot} {rootId : String}
    (hpre : ∀ s ∈ pre, s.id ≠ rootId) (hid : snap.id = rootId) (snap2 : Snapshot) :
    writeBack (pre ++ snap :: post) rootId snap2 = some (pre ++ snap2 :: post) := by
  induction pre with
  | nil =>
    rw [List.nil_append, List.nil_append]
    unfold writeBack
    rw [if_pos hid]
  | cons s rest ih =>
    show writeBack (s :: (rest ++ snap :: post)) rootId snap2 = _
    unfold writeBack
    rw [if_neg (hpre s (List.mem_cons.mpr (Or.inl rfl)))]
    rw [ih (fun s2 hs2 => hpre s2 (List.mem_cons.mpr (Or.inr hs2)))]
    rfl

/-- Mirror of `MerkleService.updateRootStatus`: not-found error on an unknown
id; otherwise set `status` to the requested value (no transition validation),
always refresh `updatedAt`, set `submittedAt`/`validAt` exactly when those
arguments are provided, and write the updated data back to the first file
whose root id matches. -/
def updateRootStatus (store : List Snapshot) (rootId status : String)
    (submittedAt validAt : Option Nat) (now : Nat) : Except String (List Snapshot) :=
  match loadMerkleData store rootId with
  | none => .error "Merkle root not found"
  | some merkleData =>
    match writeBack store rootId
        { merkleData with
          status := status
          updatedAt := some now
          submittedAt := match submittedAt with | some d => some d | none => merkleData.submittedAt
          validAt := match validAt with | some d => some d | none => merkleData.validAt } with
    | some store2 => .ok store2
    | none => .error "File for merkle root not found"

/-- C9: `updateRootStatus` on an unknown root id fails with a not-found error
and produces no updated store; on a known id (any requested status — no
transition check) it replaces exactly the first matching snapshot, setting
`status`, always `updatedAt := now`, and `submittedAt`/`validAt` exactly when
provided, leaving every other snapshot unchanged. -/
theorem C9_updateRootStatus_not_found_and_update (store : List Snapshot)
    (rootId status : String) (submittedAt validAt : Option Nat) (now : Nat) :
    ((∀ s ∈ store, s.id ≠ rootId) →
      ∃ e, updateRootStatus store rootId status submittedAt validAt now = .error e) ∧
    (∀ pre snap post, store = pre ++ snap :: post → (∀ s ∈ pre, s.id ≠ rootId) →
      snap.id = rootId →
      updateRootStatus store rootId status submittedAt validAt now = .ok (pre ++
        { snap with
          status := status
          updatedAt := some now
          submittedAt := match submittedAt with | some d => some d | none => snap.submittedAt
          validAt := match validAt with | some d => some d | none => snap.validAt } :: post)) := by
  constructor
  · intro hnone
    refine ⟨"Merkle root not found", ?_⟩
    unfold updateRootStatus
    rw [loadMerkleData_none hnone]
  · intro pre snap post hstore hpre hid
    subst hstore
    unfold updateRootStatus
    rw [loadMerkleData_first hpre hid]
    dsimp only
    rw [writeBack_first hpre hid]

/-- Full characterization of the `getLatestMerkleData` scan. -/
theorem getLatestAux_spec :
    ∀ (store : List Snapshot) (best : Option Snapshot) (bestDate : Nat),
      (∀ b, best = some b → b.createdAt = bestDate) →
      match getLatestAux store best bestDate with
      | none => best = none ∧ ∀ s ∈ store, s.status = "active" → s.createdAt ≤ bestDate
      | some r =>
          (∀ s ∈ store, s.status = "active" → s.createdAt ≤ r.createdAt) ∧
          bestDate ≤ r.createdAt ∧ (best = some r ∨ (r ∈ store ∧ r.status = "active")) := by
  intro store
  induction store with
  | nil =>
    intro best bestDate hinv
    cases best with
    | none => exact ⟨rfl, fun s hs => (List.not_mem_nil s hs).elim⟩
    | some b =>
      exact ⟨fun s hs => (List.not_mem_nil s hs).elim,
        le_of_eq (hinv b rfl).symm, Or.inl rfl⟩
  | cons s rest ih =>
    intro best bestDate hinv
    show match getLatestAux (s :: rest) best bestDate with
      | none => _ | some r => _
    unfold getLatestAux
    by_cases hc : s.status = "active" ∧ bestDate < s.createdAt
    · rw [if_pos hc]
      have hinv2 : ∀ b, (some s : Option Snapshot) = some b → b.createdAt = s.createdAt := by
        intro b hb; cases hb; rfl
      have := ih (some s) s.createdAt hinv2
      rcases hres : getLatestAux rest (some s) s.createdAt with _ | r
      · rw [hres] at this
        exact absurd this.1 (by simp)
      · rw [hres] at this
        obtain ⟨hmax, hge, hmem⟩ := this
        refine ⟨?_, ?_, ?_⟩
        · intro s2 hs2 hact
          rcases List.mem_cons.mp hs2 with rfl | hmem2
          · exact hge
          · exact hmax s2 hmem2 hact
        · exact le_trans (le_of_lt hc.2) hge
        · rcases hmem with heq | ⟨hmem2, hact2⟩
          · cases heq
            exact Or.inr ⟨List.mem_cons.mpr (Or.inl rfl), hc.1⟩
          · exact Or.inr ⟨List.mem_cons.mpr (Or.inr hmem2), hact2⟩
    · rw [if_neg hc]
      have := ih best bestDate hinv
      rcases hres : getLatestAux rest best bestDate with _ | r
      · rw [hres] at this
        obtain ⟨hbest, hmax⟩ := this
        refine ⟨hbest, ?_⟩
        intro s2 hs2 hact
        rcases List.mem_cons.mp hs2 with rfl | hmem2
        · by_cases hlt : bestDate < s2.createdAt
          · exact absurd ⟨hact, hlt⟩ hc
          · omega
        · exact hmax s2 hmem2 hact
      · rw [hres] at this
        obtain ⟨hmax, hge, hmem⟩ := this
        refine ⟨?_, hge, ?_⟩
        · intro s2 hs2 hact
          rcases List.mem_cons.mp hs2 with rfl | hmem2
          · by_cases hlt : bestDate < s2.createdAt
            · exact absurd ⟨hact, hlt⟩ hc
            · omega
          · exact hmax s2 hmem2 hact
        · rcases hmem with heq | ⟨hmem2, hact2⟩
          · exact Or.inl heq
          · exact Or.inr ⟨List.mem_cons.mpr (Or.inr hmem2), hact2⟩

theorem getLatest_some {store : List Snapshot} {r : Snapshot}
    (h : getLatestMerkleData store = some r) :
    r ∈ store ∧ r.status = "active" ∧
      ∀ s ∈ store, s.status = "active" → s.createdAt ≤ r.createdAt := by
  have := getLatestAux_spec store none 0 (by intro b hb; cases hb)
  unfold getLatestMerkleData at h
  rw [h] at this
  obtain ⟨hmax, _, hmem⟩ := this
  rcases hmem with heq | ⟨hmem2, hact⟩
  · cases heq
  · exact ⟨hmem2, hact, hmax⟩

theorem getLatest_none {store : List Snapshot}
    (h : getLatestMerkleData store = none) :
    ∀ s ∈ store, s.status = "active" → s.createdAt = 0 := by
  have := getLatestAux_spec store none 0 (by intro b hb; cases hb)
  unfold getLatestMerkleData at h
  rw [h] at this
  intro s hs hact
  have := this.2 s hs hact
  omega

theorem getLatest_of_no_active {store : List Snapshot}
    (h : ∀ s ∈ store, s.status ≠ "active") : getLatestMerkleData store = none := by
  have hspec := getLatestAux_spec store none 0 (by intro b hb; cases hb)
  rcases hres : getLatestMerkleData store with _ | r
  · rfl
  · unfold getLatestMerkleData at hres
    rw [hres] at hspec
    obtain ⟨_, _, hmem⟩ := hspec
    rcases hmem with heq | ⟨hmem2, hact⟩
    · cases heq
    · exact absurd hact (h r hmem2)

theorem getLatest_exists {store : List Snapshot} {s : Snapshot}
    (hmem : s ∈ store) (hact : s.status = "active") (hpos : 0 < s.createdAt) :
    ∃ r, getLatestMerkleData store = some r := by
  rcases hres : getLatestMerkleData store with _ | r
  · have := getLatest_none hres s hmem hact
    omega
  · exact ⟨r, rfl⟩

/-! ### The proof queries (`getProof`, `getAccountProofs`, `validateProof`) -/

/-- The payload returned to claimants (`ClaimProof` in `src/types/merkle`). -/
structure ClaimProof where
  account : JStr
  token : JStr
  amount : JStr
  proof : List Hash
deriving DecidableEq

/-- Mirror of `MerkleService.getProof`: validates both addresses (uncaught, so
a malformed address is an error rather than a not-found), resolves the
snapshot (`rootId` if given, else latest active), and returns the first leaf
matching the case-normalized pair, or `none`. -/
def getProof (store : List Snapshot) (account token : JStr) (rootId : Option String) :
    Except String (Option ClaimProof) :=
  match validateAddress account with
  | .error e => .error e
  | .ok normalizedAccount =>
    match validateAddress token with
    | .error e => .error e
    | .ok normalizedToken =>
      match resolveSnap store rootId with
      | none => .ok none
      | some merkleData =>
        match merkleData.entries.find? (fun e =>
            decide (e.account.map Char.toLower = normalizedAccount) &&
            decide (e.tokenAddress.map Char.toLower = normalizedToken)) with
        | none => .ok none
        | some entry =>
          .ok (some ⟨entry.account, entry.tokenAddress, entry.amount, entry.proof⟩)

/-- Mirror of `MerkleService.getAccountProofs`: validates the account
(uncaught), resolves the snapshot, and maps all matching leaves — returning
`[]`, never a failure, in each no-result case. -/
def getAccountProofs (store : List Snapshot) (account : JStr) (rootId : Option String) :
    Except String (List ClaimProof) :=
  match validateAddress account with
  | .error e => .error e
  | .ok normalizedAccount =>
    match resolveSnap store rootId with
    | none => .ok []
    | some merkleData =>
      .ok ((merkleData.entries.filter
          (fun e => decide (e.account.map Char.toLower = normalizedAccount))).map
        (fun e => ⟨e.account, e.tokenAddress, e.amount, e.proof⟩))

/-- Modelled from the spec: the library parses the queried amount string as
an unsigned decimal integer when ABI-encoding the leaf; a non-numeric string
makes encoding throw, which `validateProof` catches into `false`. -/
def parseAmount (s : JStr) : Option Nat :=
  if !s.isEmpty && s.all Char.isDigit then some (parseDigits s) else none

/-- Mirror of `MerkleService.validateProof`: load the snapshot by root id
(false if missing); then, inside the try/catch, normalize both addresses
(false on a validation failure), parse the amount, and recompute the
authentication path against the stored root. -/
def validateProof (store : List Snapshot) (account token amount : JStr)
    (proof : List Hash) (rootId : String) : Bool :=
  match loadMerkleData store rootId with
  | none => false
  | some merkleData =>
    match validateAddress account with
    | .error _ => false
    | .ok normalizedAccount =>
      match validateAddress token with
      | .error _ => false
      | .ok normalizedToken =>
        match parseAmount amount with
        | none => false
        | some m =>
          decide (processProof (.leaf normalizedAccount normalizedToken m) proof =
            merkleData.root)

/-- C8: `getProof` resolves the snapshot identified by `rootId` when given and
otherwise the `active` snapshot with the most recent `createdAt`; whenever no
such snapshot exists, or no leaf of the resolved snapshot matches the
case-normalized `(account, token)` pair, it returns a not-found `none` (never
a success), assuming the queried addresses themselves pass validation. -/
theorem C8_getProof_resolution_and_not_found (store : List Snapshot)
    (account token : JStr) (rootId : Option String) (a b : JStr)
    (ha : validateAddress account = .ok a) (hb : validateAddress token = .ok b) :
    (resolveSnap store rootId = none → getProof store account token rootId = .ok none) ∧
    (∀ rid s, rootId = some rid → resolveSnap store rootId = some s →
      s ∈ store ∧ s.id = rid) ∧
    (∀ s, rootId = none → resolveSnap store rootId = some s →
      s ∈ store ∧ s.status = "active" ∧
        ∀ s2 ∈ store, s2.status = "active" → s2.createdAt ≤ s.createdAt) ∧
    (rootId = none → (∃ s ∈ store, s.status = "active" ∧ 0 < s.createdAt) →
      ∃ s, resolveSnap store rootId = some s) ∧
    (∀ s, resolveSnap store rootId = some s →
      (∀ e ∈ s.entries,
        ¬(e.account.map Char.toLower = a ∧ e.tokenAddress.map Char.toLower = b)) →
      getProof store account token rootId = .ok none) := by
  refine ⟨?_, ?_, ?_, ?_, ?_⟩
  · intro hres
    unfold getProof
    rw [ha]
    dsimp only
    rw [hb]
    dsimp only
    rw [hres]
  · intro rid s hrid hres
    subst hrid
    exact loadMerkleData_mem hres
  · intro s hrid hres
    subst hrid
    exact getLatest_some hres
  · rintro hrid ⟨s, hmem, hact, hpos⟩
    subst hrid
    exact getLatest_exists hmem hact hpos
  · intro s hres hnone
    unfold getProof
    rw [ha]
    dsimp only
    rw [hb]
    dsimp only
    rw [hres]
    dsimp only
    have hfind : s.entries.find? (fun e =>
        decide (e.account.map Char.toLower = a) &&
        decide (e.tokenAddress.map Char.toLower = b)) = none := by
      rw [List.find?_eq_none]
      intro e he
      have := hnone e he
      simp only [Bool.and_eq_true, decide_eq_true_eq]
      intro hcontra
      exact this hcontra
    rw [hfind]

/-- C10: `getAccountProofs` returns an empty list, not an error, in every
no-result case — unknown `rootId`, no `active` snapshot when `rootId` is
omitted, or no leaf for the case-normalized account in the resolved snapshot
— assuming the queried account itself passes validation. -/
theorem C10_getAccountProofs_empty_not_error (store : List Snapshot) (account : JStr)
    (a : JStr) (ha : validateAddress account = .ok a) :
    (∀ rid, (∀ s ∈ store, s.id ≠ rid) →
      getAccountProofs store account (some rid) = .ok []) ∧
    ((∀ s ∈ store, s.status ≠ "active") → getAccountProofs store account none = .ok []) ∧
    (∀ rootId s, resolveSnap store rootId = some s →
      (∀ e ∈ s.entries, e.account.map Char.toLower ≠ a) →
      getAccountProofs store account rootId = .ok []) := by
  refine ⟨?_, ?_, ?_⟩
  · intro rid hnone
    unfold getAccountProofs
    rw [ha]
    dsimp only
    show (match resolveSnap store (some rid) with
      | none => Except.ok []
      | some merkleData => _) = Except.ok []
    have : resolveSnap store (some rid) = none := loadMerkleData_none hnone
    rw [this]
  · intro hnoact
    unfold getAccountProofs
    rw [ha]
    dsimp only
    show (match resolveSnap store none with
      | none => Except.ok []
      | some merkleData => _) = Except.ok []
    have : resolveSnap store none = none := getLatest_of_no_active hnoact
    rw [this]
  · intro rootId s hres hnone
    unfold getAccountProofs
    rw [ha]
    dsimp only
    rw [hres]
    dsimp only
    have hfilter : s.entries.filter (fun e => decide (e.account.map Char.toLower = a)) = [] := by
      rw [List.filter_eq_nil_iff]
      intro e he
      simp only [decide_eq_true_eq]
      exact hnone e he
    rw [hfilter]
    rfl

/-- C5: for a fixed input entry multiset, building the tree twice — in any
iteration order of the input list, with the same fresh id and timestamp
(effects drawn from the environment in the source) — yields the same root
hash and identical leaf entries: same canonical leaf ordering, same
`leafIndex` per entry, and same per-leaf proofs. -/
theorem C5_createMerkleTree_deterministic (rewards rewards2 : List RewardData)
    (id : String) (now : Nat) (ipfs : Option String) (snap snap2 : Snapshot)
    (hperm : rewards2.Perm rewards)
    (h : createMerkleTree rewards id now ipfs = .ok snap)
    (h2 : createMerkleTree rewards2 id now ipfs = .ok snap2) :
    snap2.root = snap.root ∧ snap2.entries = snap.entries := by
  obtain ⟨t, hvr, hb, hleaves, rfl⟩ := createMerkleTree_ok h
  obtain ⟨t2, hvr2, hb2, hleaves2, rfl⟩ := createMerkleTree_ok h2
  have hsort : sortEntries (rewards2.map mkV) = sortEntries (rewards.map mkV) :=
    sortEntries_eq_of_perm (hperm.map mkV)
  rw [hsort, hb] at hb2
  cases hb2
  refine ⟨rfl, ?_⟩
  show mkEntries id 0 (sortEntries (rewards2.map mkV)) t.proofList =
    mkEntries id 0 (sortEntries (rewards.map mkV)) t.proofList
  rw [hsort]

theorem validateAddress_normalized {s out : JStr} (h : validateAddress s = .ok out) :
    validateAddress out = .ok out := by
  obtain ⟨rest, hs, hlen⟩ := (validateAddress_ok_iff s).mp ⟨out, h⟩
  have hout : out = s.map Char.toLower := validateAddress_ok_val h
  have hidem : out.map Char.toLower = out := by rw [hout, map_toLower_idem]
  have hform : out = '0' :: 'x' :: rest.map Char.toLower := by
    rw [hout, hs]
    simp [(by decide : Char.toLower '0' = '0'), (by decide : Char.toLower 'x' = 'x')]
  obtain ⟨out2, hout2⟩ := (validateAddress_ok_iff out).mpr
    ⟨rest.map Char.toLower, hform, by rw [List.length_map, hlen]⟩
  rw [hout2, validateAddress_ok_val hout2, hidem]

theorem parseAmount_of_amountOk {s : JStr} (h : amountOk s = true) :
    parseAmount s = some (parseDigits s) := by
  unfold amountOk at h
  rw [Bool.and_eq_true, Bool.and_eq_true] at h
  unfold parseAmount
  rw [if_pos (by rw [Bool.and_eq_true]; exact ⟨h.1.1, h.1.2⟩)]

/-- C1 (amended): for a snapshot built from rewards with pairwise-distinct
parsed `(account, token, amount)` triples and stored under root id `rid`,
every leaf entry's stored data verifies, and any alteration — of the account
or token to one with a different case-normalized form, of the amount to a
string parsing to a different integer (or not parsing at all), of the proof
to any other path, or of the root id to one matching no stored snapshot —
makes `validateProof` return `false`. -/
theorem C1_validateProof_soundness (rewards : List RewardData) (id : String) (now : Nat)
    (ipfs : Option String) (snap : Snapshot) (store : List Snapshot) (rid : String)
    (h : createMerkleTree rewards id now ipfs = .ok snap)
    (hload : loadMerkleData store rid = some snap)
    (hdist : ((rewards.map mkV).map (fun v => (v.account, v.token, v.amount))).Nodup)
    (e : MerkleEntry) (he : e ∈ snap.entries) :
    validateProof store e.account e.tokenAddress e.amount e.proof rid = true ∧
    (∀ acc2 : JStr, acc2.map Char.toLower ≠ e.account →
      validateProof store acc2 e.tokenAddress e.amount e.proof rid = false) ∧
    (∀ tok2 : JStr, tok2.map Char.toLower ≠ e.tokenAddress →
      validateProof store e.account tok2 e.amount e.proof rid = false) ∧
    (∀ amt2 : JStr, parseAmount amt2 ≠ some (parseDigits e.amount) →
      validateProof store e.account e.tokenAddress amt2 e.proof rid = false) ∧
    (∀ proof2 : List Hash, proof2 ≠ e.proof →
      validateProof store e.account e.tokenAddress e.amount proof2 rid = false) ∧
    (∀ rid2 : String, loadMerkleData store rid2 = none →
      validateProof store e.account e.tokenAddress e.amount e.proof rid2 = false) := by
  obtain ⟨t, hvr, hb, hleaves, hsnap⟩ := createMerkleTree_ok h
  subst hsnap
  obtain ⟨v, hp, hzip, hacc, htok, hamt, hproof⟩ := mkEntries_mem_zip he
  have halign : hp.1 = leafHashOf v :=
    zip_align leafHashOf Prod.fst (by rw [proofList_map_fst, hleaves]) hzip
  have hpmem : hp ∈ t.proofList := (List.of_mem_zip hzip).2
  have hvmem : v ∈ sortEntries (rewards.map mkV) := (List.of_mem_zip hzip).1
  have hvmem2 : v ∈ rewards.map mkV := (sortEntries_perm _).subset hvmem
  obtain ⟨r, hrmem, hrv⟩ := List.mem_map.mp hvmem2
  have hvalid : validateReward r = .ok (mkV r) := (validateRewards_ok_map hvr).2 r hrmem
  have hfacts := validateReward_ok_iff.mp hvalid
  have haccok : validateAddress v.account = .ok v.account := by
    rcases hex : validateAddress r.account with e1 | o1
    · rw [hex] at hfacts
      exact absurd hfacts.1 (by simp [exceptOk])
    · have hval : o1 = r.account.map Char.toLower := validateAddress_ok_val hex
      have : v.account = o1 := by rw [← hrv, mkV, hval]
      rw [this]
      rw [hval] at hex ⊢
      exact validateAddress_normalized hex
  have htokok : validateAddress v.token = .ok v.token := by
    rcases hex : validateAddress r.token with e1 | o1
    · rw [hex] at hfacts
      exact absurd hfacts.2.1 (by simp [exceptOk])
    · have hval : o1 = r.token.map Char.toLower := validateAddress_ok_val hex
      have : v.token = o1 := by rw [← hrv, mkV, hval]
      rw [this]
      rw [hval] at hex ⊢
      exact validateAddress_normalized hex
  have hmok : amountOk v.amountStr = true := by
    rw [← hrv, mkV]
    exact hfacts.2.2.1
  have hparse : parseAmount v.amountStr = some (parseDigits v.amountStr) :=
    parseAmount_of_amountOk hmok
  have hleafpair : (leafHashOf v, e.proof) ∈ t.proofList := by
    rw [hproof, ← halign]
    exact hpmem
  have hsound : processProof (leafHashOf v) e.proof = t.hashOf :=
    processProof_sound t _ hleafpair
  have hleafy : ∀ x ∈ t.leaves, x.isLeafKind = true := by
    rw [hleaves]
    intro x hx
    obtain ⟨v2, _, rfl⟩ := List.mem_map.mp hx
    rfl
  have hnodupleaves : t.leaves.Nodup := by
    rw [hleaves]
    have h1 : ((rewards.map mkV).map leafHashOf).Nodup := by
      have h2 : (rewards.map mkV).map leafHashOf =
          ((rewards.map mkV).map (fun v => (v.account, v.token, v.amount))).map
            (fun p => Hash.leaf p.1 p.2.1 p.2.2) := by
        simp [List.map_map, Function.comp, leafHashOf]
      rw [h2]
      refine hdist.map ?_
      intro p q hpq
      obtain ⟨h1, h2, h3⟩ := Hash.leaf.inj hpq
      rcases p with ⟨pa, pt, pm⟩
      rcases q with ⟨qa, qt, qm⟩
      simp only at h1 h2 h3
      simp [h1, h2, h3]
    exact (((sortEntries_perm (rewards.map mkV)).map leafHashOf).nodup_iff).mpr h1
  refine ⟨?_, ?_, ?_, ?_, ?_, ?_⟩
  · unfold validateProof
    rw [hload]
    dsimp only
    rw [hacc, htok, hamt, haccok]
    dsimp only
    rw [htokok]
    dsimp only
    rw [hparse]
    dsimp only
    rw [decide_eq_true_eq]
    exact hsound
  · intro acc2 hne
    rw [hacc] at hne
    unfold validateProof
    rw [hload]
    dsimp only
    rcases hex : validateAddress acc2 with e1 | o1
    · rfl
    · dsimp only
      rw [htok, hamt, htokok]
      dsimp only
      rw [hparse]
      dsimp only
      rw [decide_eq_false_iff_not]
      intro hcontra
      have := processProof_inj_left e.proof (hcontra.trans hsound.symm)
      obtain ⟨h1, _, _⟩ := Hash.leaf.inj this
      exact hne (by rw [← h1, validateAddress_ok_val hex])
  · intro tok2 hne
    rw [htok] at hne
    unfold validateProof
    rw [hload]
    dsimp only
    rw [hacc, hamt, haccok]
    dsimp only
    rcases hex : validateAddress tok2 with e1 | o1
    · rfl
    · dsimp only
      rw [hparse]
      dsimp only
      rw [decide_eq_false_iff_not]
      intro hcontra
      have := processProof_inj_left e.proof (hcontra.trans hsound.symm)
      obtain ⟨_, h2, _⟩ := Hash.leaf.inj this
      exact hne (by rw [← h2, validateAddress_ok_val hex])
  · intro amt2 hne
    rw [hamt] at hne
    unfold validateProof
    rw [hload]
    dsimp only
    rw [hacc, htok, haccok]
    dsimp only
    rw [htokok]
    dsimp only
    rcases hpm : parseAmount amt2 with _ | m
    · rfl
    · dsimp only
      rw [decide_eq_false_iff_not]
      intro hcontra
      have := processProof_inj_left e.proof (hcontra.trans hsound.symm)
      obtain ⟨_, _, h3⟩ := Hash.leaf.inj this
      rw [hpm, h3] at hne
      exact hne rfl
  · intro proof2 hne
    unfold validateProof
    rw [hload]
    dsimp only
    rw [hacc, htok, hamt, haccok]
    dsimp only
    rw [htokok]
    dsimp only
    rw [hparse]
    dsimp only
    rw [decide_eq_false_iff_not]
    intro hcontra
    have hmem2 : (Hash.leaf v.account v.token (parseDigits v.amountStr), proof2) ∈
        t.proofList :=
      processProof_complete (Hash.leaf v.account v.token (parseDigits v.amountStr)) rfl
        t hleafy proof2 hcontra
    have hfstnodup : (t.proofList.map Prod.fst).Nodup := by
      rw [proofList_map_fst]
      exact hnodupleaves
    have := snd_unique_of_fst_nodup hfstnodup hmem2 hleafpair
    exact hne this
  · intro rid2 h2
    unfold validateProof
    rw [h2]

/-! ### The reward aggregator (`RewardProcessor` in the tree-generation CLI) -/

/-- One incentive attached to a vault (display numbers modelled as rationals). -/
structure Incentive where
  vault : String
  startTimestamp : Nat
  endTimestamp : Nat
  maxRewards : ℚ
  rewardRate : ℚ
  token : String
deriving DecidableEq

/-- A vault as returned by the registry. -/
structure VaultData where
  isDeprecated : Bool
  address : String
  incentives : List Incentive
deriving DecidableEq

/-- A raw leaderboard record; `rewards` is a display amount (floating point
in the source, modelled as a rational). -/
structure LeaderboardEntry where
  position : Nat
  user : String
  vault : String
  rewards : ℚ
  currentRewardsPerSecond : ℚ
deriving DecidableEq

/-- The concatenated leaderboard pages an incentive query yields, as an
oracle over the query parameters of `fetchIncentiveLeaderboard` (network and
pagination effects are folded into the environment; a failed page fetch
simply yields fewer records). -/
abbrev FetchOracle := String → Nat → Nat → ℚ → ℚ → List LeaderboardEntry

/-- The static `TOKEN_ADDRESSES` table of the CLI. -/
def TOKEN_ADDRESSES : List (Nat × List (String × String)) :=
  [(1, [("MGV", "0x177E14e8ec24BaBa77B08d96053C08Bf7F37AB49")]),
   (8453, [("MGV", "0x177E14e8ec24BaBa77B08d96053C08Bf7F37AB49")]),
   (137, [("MGV", "0x177E14e8ec24BaBa77B08d96053C08Bf7F37AB49")]),
   (42161, [("MGV", "0x177E14e8ec24BaBa77B08d96053C08Bf7F37AB49")])]

/-- Mirror of `RewardProcessor.getTokenAddress`: an unknown chain id or an
unknown token symbol throws. -/
def getTokenAddress (chainId : Nat) (tokenSymbol : String) : Except String String :=
  match aget TOKEN_ADDRESSES chainId with
  | none => .error "No token addresses configured for chain"
  | some chainTokens =>
    match aget chainTokens tokenSymbol with
    | none => .error "Unknown token symbol for chain"
    | some address => .ok address

/-- `BigInt(Math.floor(entry.rewards * Math.pow(10, 18)))`: conversion of a
display amount to 18-decimal base units, rounding down. -/
def convRewards (q : ℚ) : Int := Int.floor (q * (10 : ℚ) ^ 18)

/-- Mirror of `RewardProcessor.processIncentive` (logging elided): fetch the
leaderboard, resolve the incentive's token, and store the converted amount
of every positive-rewards record in a `Map` keyed by user — a later record
for the same user overwrites the earlier one. -/
def processIncentive (chainId : Nat) (fetch : FetchOracle) (vaultAddress : String)
    (inc : Incentive) : Except String (List (String × String × Int)) :=
  match getTokenAddress chainId inc.token with
  | .error e => .error e
  | .ok tokenAddress =>
    .ok ((fetch vaultAddress inc.startTimestamp inc.endTimestamp inc.rewardRate
        inc.maxRewards).foldl
      (fun userRewards entry =>
        if 0 < entry.rewards then
          aset userRewards entry.user (tokenAddress, convRewards entry.rewards)
        else userRewards)
      [])

/-- Nested accumulation step: `aggregated[user][token] += amount` with the
`|| 0` default of the source. -/
def addReward (agg : List (String × List (String × Int))) (user token : String)
    (amount : Int) : List (String × List (String × Int)) :=
  aset agg user
    (aset ((aget agg user).getD []) token
      ((aget ((aget agg user).getD []) token).getD 0 + amount))

/-- Mirror of `RewardProcessor.processVaultIncentives`: skip deprecated
vaults (unless included) and future incentives; process each remaining
incentive, catching any error — a failing incentive is logged and skipped,
never fatal — and aggregate rewards by user and token. -/
def processVaultIncentives (chainId : Nat) (now : Nat) (fetch : FetchOracle)
    (vault : VaultData) (includeDeprecated : Bool) :
    List (String × List (String × Int)) :=
  if vault.isDeprecated && !includeDeprecated then []
  else
    vault.incentives.foldl
      (fun agg inc =>
        if now < inc.startTimestamp then agg
        else
          match processIncentive chainId fetch vault.address inc with
          | .error _ => agg
          | .ok incentiveRewards =>
            incentiveRewards.foldl (fun agg2 p => addReward agg2 p.1 p.2.1 p.2.2) agg)
      []

/-- The flattening loop at the end of `transformVaultDataToRewards`: one
output triple per `(user, token)` with a positive amount, in map order. -/
def flattenRewards : List (String × List (String × Int)) → List (String × String × Int)
  | [] => []
  | (user, toks) :: rest =>
    ((toks.filter (fun q => decide (0 < q.2))).map (fun q => (user, q.1, q.2))) ++
      flattenRewards rest

/-- Mirror of `RewardProcessor.transformVaultDataToRewards`: merge every
vault's aggregation into a global user → token → amount map, then flatten
it, dropping non-positive amounts.  (The source's final `.toString()` per
amount is representation only; the integer is kept.) -/
def transformVaultDataToRewards (chainId : Nat) (now : Nat) (fetch : FetchOracle)
    (vaults : List VaultData) (includeDeprecated : Bool) :
    List (String × String × Int) :=
  flattenRewards
    (vaults.foldl
      (fun g vault =>
        (processVaultIncentives chainId now fetch vault includeDeprecated).foldl
          (fun g2 p => p.2.foldl (fun g3 q => addReward g3 p.1 q.1 q.2) g2)
          g)
      [])

/-! ### Specification-side description of the aggregation -/

/-- The last leaderboard record with positive rewards for a user — the one
whose amount survives the per-incentive `Map.set` overwrites. -/
def lastPosRecord (user : String) : List LeaderboardEntry → Option LeaderboardEntry
  | [] => none
  | entry :: rest =>
    match lastPosRecord user rest with
    | some r => some r
    | none => if entry.user = user ∧ 0 < entry.rewards then some entry else none

/-- Contribution of one incentive to the pair `(user, token)`: zero if the
incentive's token cannot be resolved or resolves to a different address,
else the floor-converted amount of the user's last positive leaderboard
record. -/
def incentiveContrib (chainId : Nat) (fetch : FetchOracle) (vaultAddress : String)
    (inc : Incentive) (user token : String) : Int :=
  match getTokenAddress chainId inc.token with
  | .error _ => 0
  | .ok tokenAddress =>
    if tokenAddress = token then
      match lastPosRecord user (fetch vaultAddress inc.startTimestamp inc.endTimestamp
          inc.rewardRate inc.maxRewards) with
      | some entry => convRewards entry.rewards
      | none => 0
    else 0

/-- The aggregate amount the specification predicts for `(user, token)`:
the sum, over all processed vaults and their non-future incentives, of the
per-incentive contributions. -/
def specAmount (chainId : Nat) (now : Nat) (fetch : FetchOracle)
    (vaults : List VaultData) (includeDeprecated : Bool) (user token : String) : Int :=
  (vaults.map (fun vault =>
    if vault.isDeprecated && !includeDeprecated then 0
    else (vault.incentives.map (fun inc =>
      if now < inc.startTimestamp then 0
      else incentiveContrib chainId fetch vault.address inc user token)).sum)).sum

/-! ### Association-list facts used by the aggregation proofs -/

/-- The keys of an association list. -/
def keysOf {α β : Type} (m : List (α × β)) : List α := m.map Prod.fst

theorem aget_mem {α β : Type} [DecidableEq α] :
    ∀ {m : List (α × β)} {k : α} {v : β}, aget m k = some v → (k, v) ∈ m := by
  intro m
  induction m with
  | nil => intro k v h; cases h
  | cons p rest ih =>
    intro k v h
    rcases p with ⟨k2, v2⟩
    unfold aget at h
    by_cases hk : k2 = k
    · rw [if_pos hk] at h
      cases h
      subst hk
      exact List.mem_cons.mpr (Or.inl rfl)
    · rw [if_neg hk] at h
      exact List.mem_cons.mpr (Or.inr (ih h))

theorem aget_none_iff {α β : Type} [DecidableEq α] :
    ∀ {m : List (α × β)} {k : α}, aget m k = none ↔ k ∉ keysOf m := by
  intro m
  induction m with
  | nil => intro k; simp [aget, keysOf]
  | cons p rest ih =>
    intro k
    rcases p with ⟨k2, v2⟩
    unfold aget
    by_cases hk : k2 = k
    · subst hk
      simp [keysOf]
    · rw [if_neg hk]
      simp only [keysOf, List.map_cons, List.mem_cons]
      rw [ih]
      constructor
      · intro h hc
        rcases hc with hc | hc
        · exact hk hc.symm
        · exact h hc
      · intro h hc
        exact h (Or.inr hc)

theorem mem_iff_aget {α β : Type} [DecidableEq α] :
    ∀ {m : List (α × β)}, (keysOf m).Nodup →
      ∀ {k : α} {v : β}, ((k, v) ∈ m ↔ aget m k = some v) := by
  intro m
  induction m with
  | nil => intro _ k v; simp [aget]
  | cons p rest ih =>
    intro hnd k v
    rcases p with ⟨k2, v2⟩
    rw [keysOf, List.map_cons, List.nodup_cons] at hnd
    unfold aget
    by_cases hk : k2 = k
    · subst hk
      rw [if_pos rfl]
      simp only [List.mem_cons, Prod.mk.injEq]
      constructor
      · rintro (⟨_, rfl⟩ | hmem)
        · rfl
        · exfalso
          exact hnd.1 (by exact List.mem_map.mpr ⟨(k2, v), hmem, rfl⟩)
      · intro h
        cases h
        exact Or.inl ⟨trivial, rfl⟩
    · rw [if_neg hk]
      rw [List.mem_cons]
      constructor
      · rintro (heq | hmem)
        · exact absurd (congrArg Prod.fst heq).symm hk
        · exact (ih hnd.2).mp hmem
      · intro h
        exact Or.inr ((ih hnd.2).mpr h)

theorem aset_keys_eq {α β : Type} [DecidableEq α] :
    ∀ (m : List (α × β)) (k : α) (v : β),
      keysOf (aset m k v) = if k ∈ keysOf m then keysOf m else keysOf m ++ [k] := by
  intro m
  induction m with
  | nil => intro k v; simp [aset, keysOf]
  | cons p rest ih =>
    intro k v
    rcases p with ⟨k2, v2⟩
    unfold aset
    by_cases hk : k2 = k
    · subst hk
      simp [keysOf]
    · rw [if_neg hk]
      have hcons : keysOf ((k2, v2) :: aset rest k v) = k2 :: keysOf (aset rest k v) := rfl
      have hcons2 : keysOf ((k2, v2) :: rest) = k2 :: keysOf rest := rfl
      rw [hcons, hcons2, ih]
      by_cases hmem : k ∈ keysOf rest
      · rw [if_pos hmem, if_pos (List.mem_cons.mpr (Or.inr hmem))]
      · rw [if_neg hmem, if_neg (show ¬ k ∈ k2 :: keysOf rest by
          intro hc
          rcases List.mem_cons.mp hc with hc2 | hc2
          · exact hk hc2.symm
          · exact hmem hc2)]
        rfl

theorem aset_keys_nodup {α β : Type} [DecidableEq α] {m : List (α × β)} {k : α} {v : β}
    (h : (keysOf m).Nodup) : (keysOf (aset m k v)).Nodup := by
  rw [aset_keys_eq]
  by_cases hmem : k ∈ keysOf m
  · rw [if_pos hmem]; exact h
  · rw [if_neg hmem]
    rw [List.nodup_append]
    exact ⟨h, List.nodup_singleton k, by simpa using hmem⟩

theorem aset_mem_sub {α β : Type} [DecidableEq α] :
    ∀ {m : List (α × β)} {k : α} {v : β} {p : α × β},
      p ∈ aset m k v → p = (k, v) ∨ p ∈ m := by
  intro m
  induction m with
  | nil =>
    intro k v p h
    simp only [aset, List.mem_singleton] at h
    exact Or.inl h
  | cons q rest ih =>
    intro k v p h
    rcases q with ⟨k2, v2⟩
    unfold aset at h
    by_cases hk : k2 = k
    · rw [if_pos hk] at h
      subst hk
      rcases List.mem_cons.mp h with rfl | hmem
      · exact Or.inl rfl
      · exact Or.inr (List.mem_cons.mpr (Or.inr hmem))
    · rw [if_neg hk] at h
      rcases List.mem_cons.mp h with rfl | hmem
      · exact Or.inr (List.mem_cons.mpr (Or.inl rfl))
      · rcases ih hmem with heq | hmem2
        · exact Or.inl heq
        · exact Or.inr (List.mem_cons.mpr (Or.inr hmem2))

/-- Well-formedness of the nested accumulation maps: duplicate-free keys at
both levels. -/
def Good2 (agg : List (String × List (String × Int))) : Prop :=
  (keysOf agg).Nodup ∧ ∀ p ∈ agg, (keysOf p.2).Nodup

theorem addReward_good {agg : List (String × List (String × Int))} {user token : String}
    {amount : Int} (h : Good2 agg) : Good2 (addReward agg user token amount) := by
  obtain ⟨h1, h2⟩ := h
  constructor
  · exact aset_keys_nodup h1
  · intro p hp
    rcases aset_mem_sub hp with rfl | hmem
    · show (keysOf (aset ((aget agg user).getD []) token _)).Nodup
      apply aset_keys_nodup
      rcases hcase : aget agg user with _ | toks
      · simp [keysOf]
      · exact h2 _ (aget_mem hcase)
    · exact h2 p hmem

theorem foldAdd_good {ur : List (String × String × Int)}
    {agg : List (String × List (String × Int))} (h : Good2 agg) :
    Good2 (ur.foldl (fun agg2 p => addReward agg2 p.1 p.2.1 p.2.2) agg) := by
  induction ur generalizing agg with
  | nil => exact h
  | cons p rest ih => exact ih (addReward_good h)

theorem foldMerge_good {vr : List (String × List (String × Int))}
    {g : List (String × List (String × Int))} (h : Good2 g) :
    Good2 (vr.foldl (fun g2 p => p.2.foldl (fun g3 q => addReward g3 p.1 q.1 q.2) g2) g) := by
  induction vr generalizing g with
  | nil => exact h
  | cons p rest ih =>
    apply ih
    have : ∀ (toks : List (String × Int)) (g2 : List (String × List (String × Int))),
        Good2 g2 → Good2 (toks.foldl (fun g3 q => addReward g3 p.1 q.1 q.2) g2) := by
      intro toks
      induction toks with
      | nil => intro g2 hg2; exact hg2
      | cons q rest2 ih2 => intro g2 hg2; exact ih2 _ (addReward_good hg2)
    exact this p.2 g h

theorem transform_global_good (chainId : Nat) (now : Nat) (fetch : FetchOracle)
    (vaults : List VaultData) (includeDeprecated : Bool) :
    Good2 (vaults.foldl
      (fun g vault =>
        (processVaultIncentives chainId now fetch vault includeDeprecated).foldl
          (fun g2 p => p.2.foldl (fun g3 q => addReward g3 p.1 q.1 q.2) g2)
          g)
      []) := by
  have hstart : Good2 ([] : List (String × List (String × Int))) := by
    exact ⟨List.nodup_nil, fun p hp => (List.not_mem_nil p hp).elim⟩
  generalize ([] : List (String × List (String × Int))) = g0 at hstart ⊢
  induction vaults generalizing g0 with
  | nil => exact hstart
  | cons v rest ih => exact ih _ (foldMerge_good hstart)

/-- Value of the two-level accumulation map at `(user, token)`, defaulting
to zero. -/
def aget2D (agg : List (String × List (String × Int))) (user token : String) : Int :=
  (aget ((aget agg user).getD []) token).getD 0

theorem aget2D_addReward (agg : List (String × List (String × Int)))
    (u tok u2 tok2 : String) (amt : Int) :
    aget2D (addReward agg u2 tok2 amt) u tok =
      aget2D agg u tok + (if u = u2 ∧ tok = tok2 then amt else 0) := by
  unfold addReward aget2D
  by_cases hu : u2 = u
  · subst hu
    rw [aget_aset_self]
    simp only [Option.getD_some]
    by_cases ht : tok2 = tok
    · subst ht
      rw [aget_aset_self]
      simp
    · rw [aget_aset_ne _ _ _ _ ht]
      split
      · next hcond => exact absurd hcond.2.symm ht
      · next hcond => simp
  · rw [aget_aset_ne _ _ _ _ hu]
    split
    · next hcond => exact absurd hcond.1.symm hu
    · next hcond => simp

theorem filter_fst_ne_nil {β : Type} {l : List (String × β)} {u : String}
    (h : ∀ p ∈ l, p.1 ≠ u) (pred : String × β → Bool)
    (hpred : ∀ p, pred p = true → p.1 = u) : l.filter pred = [] := by
  rw [List.filter_eq_nil_iff]
  intro p hp hc
  exact h p hp (hpred p hc)

theorem sum_filter_aget {toks : List (String × Int)} (hnd : (keysOf toks).Nodup)
    (tok : String) :
    ((toks.filter (fun q => decide (q.1 = tok))).map (fun q => q.2)).sum =
      (aget toks tok).getD 0 := by
  induction toks with
  | nil => rfl
  | cons q rest ih =>
    rcases q with ⟨t2, a2⟩
    rw [keysOf, List.map_cons, List.nodup_cons] at hnd
    unfold aget
    by_cases ht : t2 = tok
    · subst ht
      rw [if_pos rfl]
      have hrest : rest.filter (fun q => decide (q.1 = t2)) = [] := by
        rw [List.filter_eq_nil_iff]
        intro p hp hc
        rw [decide_eq_true_eq] at hc
        exact hnd.1 (hc ▸ List.mem_map.mpr ⟨p, hp, rfl⟩)
      simp [List.filter_cons, hrest]
    · rw [if_neg ht]
      simp only [List.filter_cons, decide_eq_true_eq]
      rw [if_neg ht]
      exact ih hnd.2

/-- The per-incentive `Map` fold: the surviving value per user is that of the
last positive-rewards record. -/
theorem lbFold_aget (ta : String) :
    ∀ (lb : List LeaderboardEntry) (m : List (String × String × Int)) (u : String),
      aget (lb.foldl
        (fun userRewards entry =>
          if 0 < entry.rewards then
            aset userRewards entry.user (ta, convRewards entry.rewards)
          else userRewards) m) u =
        match lastPosRecord u lb with
        | some e => some (ta, convRewards e.rewards)
        | none => aget m u := by
  intro lb
  induction lb with
  | nil => intro m u; rfl
  | cons entry rest ih =>
    intro m u
    rw [List.foldl_cons, ih]
    rcases hlast : lastPosRecord u rest with _ | r
    · have hcons : lastPosRecord u (entry :: rest) =
          if entry.user = u ∧ 0 < entry.rewards then some entry else none := by
        unfold lastPosRecord
        rw [hlast]
      simp only [hlast]
      rw [hcons]
      by_cases hrew : 0 < entry.rewards
      · rw [if_pos hrew]
        by_cases huser : entry.user = u
        · rw [if_pos (show entry.user = u ∧ 0 < entry.rewards from ⟨huser, hrew⟩)]
          rw [huser, aget_aset_self]
        · rw [if_neg (show ¬(entry.user = u ∧ 0 < entry.rewards) from fun hc => huser hc.1)]
          rw [aget_aset_ne _ _ _ _ huser]
      · rw [if_neg hrew,
          if_neg (show ¬(entry.user = u ∧ 0 < entry.rewards) from fun hc => hrew hc.2)]
    · have hcons : lastPosRecord u (entry :: rest) = some r := by
        unfold lastPosRecord
        rw [hlast]
      simp only [hlast]
      rw [hcons]

theorem lbFold_keys_nodup (ta : String) :
    ∀ (lb : List LeaderboardEntry) (m : List (String × String × Int)),
      (keysOf m).Nodup →
      (keysOf (lb.foldl
        (fun userRewards entry =>
          if 0 < entry.rewards then
            aset userRewards entry.user (ta, convRewards entry.rewards)
          else userRewards) m)).Nodup := by
  intro lb
  induction lb with
  | nil => intro m h; exact h
  | cons entry rest ih =>
    intro m h
    rw [List.foldl_cons]
    apply ih
    by_cases hrew : 0 < entry.rewards
    · rw [if_pos hrew]
      exact aset_keys_nodup h
    · rw [if_neg hrew]
      exact h

/-- Inversion of a successful `processIncentive`. -/
theorem processIncentive_ok {chainId : Nat} {fetch : FetchOracle} {va : String}
    {inc : Incentive} {ur : List (String × String × Int)}
    (h : processIncentive chainId fetch va inc = .ok ur) :
    ∃ ta, getTokenAddress chainId inc.token = .ok ta ∧
      (keysOf ur).Nodup ∧
      ∀ u, aget ur u =
        match lastPosRecord u (fetch va inc.startTimestamp inc.endTimestamp
            inc.rewardRate inc.maxRewards) with
        | some e => some (ta, convRewards e.rewards)
        | none => none := by
  unfold processIncentive at h
  rcases hta : getTokenAddress chainId inc.token with e | ta
  · rw [hta] at h; cases h
  · rw [hta] at h
    cases h
    refine ⟨ta, rfl, ?_, ?_⟩
    · exact lbFold_keys_nodup ta _ [] List.nodup_nil
    · intro u
      rw [lbFold_aget ta _ [] u]
      rcases lastPosRecord u (fetch va inc.startTimestamp inc.endTimestamp
          inc.rewardRate inc.maxRewards) with _ | e
      · rfl
      · rfl

theorem aget2D_foldAdd :
    ∀ (ur : List (String × String × Int)) (agg : List (String × List (String × Int)))
      (u tok : String),
      aget2D (ur.foldl (fun agg2 p => addReward agg2 p.1 p.2.1 p.2.2) agg) u tok =
        aget2D agg u tok +
          ((ur.filter (fun p => decide (p.1 = u) && decide (p.2.1 = tok))).map
            (fun p => p.2.2)).sum := by
  intro ur
  induction ur with
  | nil => intro agg u tok; simp
  | cons p rest ih =>
    intro agg u tok
    rw [List.foldl_cons, ih, aget2D_addReward]
    simp only [List.filter_cons, Bool.and_eq_true, decide_eq_true_eq]
    by_cases hc : p.1 = u ∧ p.2.1 = tok
    · rw [if_pos hc, if_pos (show u = p.1 ∧ tok = p.2.1 from ⟨hc.1.symm, hc.2.symm⟩)]
      simp only [List.map_cons, List.sum_cons]
      omega
    · rw [if_neg hc,
        if_neg (show ¬(u = p.1 ∧ tok = p.2.1) from fun h => hc ⟨h.1.symm, h.2.symm⟩)]
      omega

theorem sum_filter_aget2 {ur : List (String × String × Int)} (hnd : (keysOf ur).Nodup)
    (u tok : String) :
    ((ur.filter (fun p => decide (p.1 = u) && decide (p.2.1 = tok))).map
      (fun p => p.2.2)).sum =
      match aget ur u with
      | some q => if q.1 = tok then q.2 else 0
      | none => 0 := by
  induction ur with
  | nil => rfl
  | cons p rest ih =>
    rcases p with ⟨u2, q2⟩
    rw [keysOf, List.map_cons, List.nodup_cons] at hnd
    unfold aget
    by_cases hu : u2 = u
    · subst hu
      rw [if_pos rfl]
      have hrest : rest.filter (fun p => decide (p.1 = u2) && decide (p.2.1 = tok)) = [] := by
        rw [List.filter_eq_nil_iff]
        intro p hp hc
        rw [Bool.and_eq_true, decide_eq_true_eq, decide_eq_true_eq] at hc
        exact hnd.1 (hc.1 ▸ List.mem_map.mpr ⟨p, hp, rfl⟩)
      by_cases ht : q2.1 = tok
      · simp [List.filter_cons, hrest, ht]
      · simp [List.filter_cons, hrest, ht]
    · rw [if_neg hu]
      simp only [List.filter_cons, Bool.and_eq_true, decide_eq_true_eq]
      rw [if_neg (fun hc => hu hc.1)]
      exact ih hnd.2

/-- Aggregate effect of one incentive-fold (the body of
`processVaultIncentives`) on the accumulated amount at `(u, tok)`. -/
theorem aget2D_incFold (chainId now : Nat) (fetch : FetchOracle) (va : String)
    (u tok : String) :
    ∀ (incs : List Incentive) (agg : List (String × List (String × Int))),
      aget2D (incs.foldl
        (fun agg inc =>
          if now < inc.startTimestamp then agg
          else
            match processIncentive chainId fetch va inc with
            | .error _ => agg
            | .ok incentiveRewards =>
              incentiveRewards.foldl (fun agg2 p => addReward agg2 p.1 p.2.1 p.2.2) agg)
        agg) u tok =
      aget2D agg u tok + (incs.map (fun inc =>
        if now < inc.startTimestamp then 0
        else incentiveContrib chainId fetch va inc u tok)).sum := by
  intro incs
  induction incs with
  | nil => intro agg; simp
  | cons inc rest ih =>
    intro agg
    rw [List.foldl_cons, ih, List.map_cons, List.sum_cons]
    by_cases hfut : now < inc.startTimestamp
    · rw [if_pos hfut, if_pos hfut]
      omega
    · rw [if_neg hfut, if_neg hfut]
      rcases hpi : processIncentive chainId fetch va inc with e | ur
      · dsimp only
        have hcontrib : incentiveContrib chainId fetch va inc u tok = 0 := by
          unfold incentiveContrib
          unfold processIncentive at hpi
          rcases hta : getTokenAddress chainId inc.token with e2 | ta
          · rfl
          · rw [hta] at hpi
            cases hpi
        rw [hcontrib]
        omega
      · dsimp only
        obtain ⟨ta, hta, hnd, haget⟩ := processIncentive_ok hpi
        rw [aget2D_foldAdd, sum_filter_aget2 hnd]
        have hmatch : (match aget ur u with
            | some q => if q.1 = tok then q.2 else 0
            | none => 0) = incentiveContrib chainId fetch va inc u tok := by
          rw [haget u]
          unfold incentiveContrib
          rw [hta]
          rcases hl : lastPosRecord u (fetch va inc.startTimestamp inc.endTimestamp
              inc.rewardRate inc.maxRewards) with _ | e2
          · by_cases htk : ta = tok
            · simp [htk]
            · simp [htk]
          · by_cases htk : ta = tok
            · simp [htk]
            · simp [htk]
        rw [hmatch]
        omega

theorem incFold_good (chainId now : Nat) (fetch : FetchOracle) (va : String) :
    ∀ (incs : List Incentive) (agg : List (String × List (String × Int))), Good2 agg →
      Good2 (incs.foldl
        (fun agg inc =>
          if now < inc.startTimestamp then agg
          else
            match processIncentive chainId fetch va inc with
            | .error _ => agg
            | .ok incentiveRewards =>
              incentiveRewards.foldl (fun agg2 p => addReward agg2 p.1 p.2.1 p.2.2) agg)
        agg) := by
  intro incs
  induction incs with
  | nil => intro agg h; exact h
  | cons inc rest ih =>
    intro agg h
    rw [List.foldl_cons]
    apply ih
    by_cases hfut : now < inc.startTimestamp
    · rw [if_pos hfut]; exact h
    · rw [if_neg hfut]
      rcases hpi : processIncentive chainId fetch va inc with e | ur
      · exact h
      · exact foldAdd_good h

/-- The per-vault aggregation map, characterized pointwise. -/
theorem aget2D_processVault (chainId now : Nat) (fetch : FetchOracle) (vault : VaultData)
    (incl : Bool) (u tok : String) :
    aget2D (processVaultIncentives chainId now fetch vault incl) u tok =
      if vault.isDeprecated && !incl then 0
      else (vault.incentives.map (fun inc =>
        if now < inc.startTimestamp then 0
        else incentiveContrib chainId fetch vault.address inc u tok)).sum := by
  unfold processVaultIncentives
  by_cases hdep : (vault.isDeprecated && !incl) = true
  · rw [if_pos hdep, if_pos hdep]
    rfl
  · rw [if_neg hdep, if_neg hdep]
    rw [aget2D_incFold]
    simp [aget2D, aget]

theorem processVault_good (chainId now : Nat) (fetch : FetchOracle) (vault : VaultData)
    (incl : Bool) : Good2 (processVaultIncentives chainId now fetch vault incl) := by
  unfold processVaultIncentives
  by_cases hdep : (vault.isDeprecated && !incl) = true
  · rw [if_pos hdep]
    exact ⟨List.nodup_nil, fun p hp => (List.not_mem_nil p hp).elim⟩
  · rw [if_neg hdep]
    exact incFold_good chainId now fetch vault.address _ _
      ⟨List.nodup_nil, fun p hp => (List.not_mem_nil p hp).elim⟩

/-- The `(user, token, amount)` triples listed by a two-level map. -/
def flatPairs : List (String × List (String × Int)) → List (String × String × Int)
  | [] => []
  | (u2, toks) :: rest => toks.map (fun q => (u2, q.1, q.2)) ++ flatPairs rest

theorem mergeFold_eq (vr : List (String × List (String × Int))) :
    ∀ g, vr.foldl (fun g2 p => p.2.foldl (fun g3 q => addReward g3 p.1 q.1 q.2) g2) g =
      (flatPairs vr).foldl (fun g2 p => addReward g2 p.1 p.2.1 p.2.2) g := by
  induction vr with
  | nil => intro g; rfl
  | cons p rest ih =>
    intro g
    rcases p with ⟨u2, toks⟩
    rw [List.foldl_cons]
    show _ = (toks.map (fun q => (u2, q.1, q.2)) ++ flatPairs rest).foldl _ g
    rw [List.foldl_append, ih, List.foldl_map]

theorem flatPairs_fst {vr : List (String × List (String × Int))}
    {p : String × String × Int} (h : p ∈ flatPairs vr) : p.1 ∈ keysOf vr := by
  induction vr with
  | nil => cases h
  | cons q rest ih =>
    rcases q with ⟨u2, toks⟩
    rcases List.mem_append.mp h with hl | hr
    · obtain ⟨x, _, rfl⟩ := List.mem_map.mp hl
      exact List.mem_cons.mpr (Or.inl rfl)
    · exact List.mem_cons.mpr (Or.inr (ih hr))

theorem sum_flatPairs {vr : List (String × List (String × Int))} (hg : Good2 vr)
    (u tok : String) :
    (((flatPairs vr).filter (fun p => decide (p.1 = u) && decide (p.2.1 = tok))).map
      (fun p => p.2.2)).sum = aget2D vr u tok := by
  induction vr with
  | nil => rfl
  | cons q rest ih =>
    rcases q with ⟨u2, toks⟩
    have hkey : u2 ∉ keysOf rest := by
      have := hg.1
      rw [keysOf, List.map_cons, List.nodup_cons] at this
      exact this.1
    have htoks : (keysOf toks).Nodup := hg.2 (u2, toks) (List.mem_cons.mpr (Or.inl rfl))
    have hrest : Good2 rest := by
      refine ⟨?_, ?_⟩
      · have := hg.1
        rw [keysOf, List.map_cons, List.nodup_cons] at this
        exact this.2
      · intro p hp
        exact hg.2 p (List.mem_cons.mpr (Or.inr hp))
    show (((toks.map (fun q => (u2, q.1, q.2)) ++ flatPairs rest).filter _).map _).sum = _
    rw [List.filter_append, List.map_append, List.sum_append]
    rw [List.filter_map, List.map_map]
    by_cases hu : u2 = u
    · subst hu
      have hpred : ((fun p : String × String × Int =>
            decide (p.1 = u2) && decide (p.2.1 = tok)) ∘ (fun q : String × Int =>
            (u2, q.1, q.2))) = fun q : String × Int => decide (q.1 = tok) := by
        funext q
        simp [Function.comp]
      rw [hpred]
      have hrestnil : (flatPairs rest).filter
          (fun p => decide (p.1 = u2) && decide (p.2.1 = tok)) = [] := by
        rw [List.filter_eq_nil_iff]
        intro p hp hc
        rw [Bool.and_eq_true, decide_eq_true_eq, decide_eq_true_eq] at hc
        exact hkey (hc.1 ▸ flatPairs_fst hp)
      rw [hrestnil]
      have hmapval : (fun p : String × String × Int => p.2.2) ∘
          (fun q : String × Int => (u2, q.1, q.2)) = fun q : String × Int => q.2 := by
        funext q
        rfl
      rw [hmapval, sum_filter_aget htoks]
      have hagetcons : aget ((u2, toks) :: rest) u2 = some toks := by
        simp [aget]
      show _ = aget2D ((u2, toks) :: rest) u2 tok
      unfold aget2D
      rw [hagetcons]
      simp
    · have hpred : ((fun p : String × String × Int =>
            decide (p.1 = u) && decide (p.2.1 = tok)) ∘ (fun q : String × Int =>
            (u2, q.1, q.2))) = fun _ : String × Int => false := by
        funext q
        simp [Function.comp, hu]
      rw [hpred]
      have : toks.filter (fun _ => false) = [] := by
        rw [List.filter_eq_nil_iff]
        intro p _ hc
        cases hc
      rw [this]
      show (([] : List Int)).sum + _ = _
      rw [ih hrest]
      have hagetcons : aget ((u2, toks) :: rest) u = aget rest u := by
        simp [aget, hu]
      show 0 + _ = aget2D ((u2, toks) :: rest) u tok
      unfold aget2D
      rw [hagetcons]
      simp

/-- Value of the global accumulation after merging all vaults. -/
theorem aget2D_vaultsFold (chainId now : Nat) (fetch : FetchOracle) (incl : Bool)
    (u tok : String) :
    ∀ (vaults : List VaultData) (g : List (String × List (String × Int))), Good2 g →
      aget2D (vaults.foldl
        (fun g vault =>
          (processVaultIncentives chainId now fetch vault incl).foldl
            (fun g2 p => p.2.foldl (fun g3 q => addReward g3 p.1 q.1 q.2) g2)
            g)
        g) u tok =
      aget2D g u tok + (vaults.map (fun vault =>
        if vault.isDeprecated && !incl then 0
        else (vault.incentives.map (fun inc =>
          if now < inc.startTimestamp then 0
          else incentiveContrib chainId fetch vault.address inc u tok)).sum)).sum := by
  intro vaults
  induction vaults with
  | nil => intro g _; simp
  | cons vault rest ih =>
    intro g hgood
    rw [List.foldl_cons, List.map_cons, List.sum_cons]
    have hmerge : aget2D ((processVaultIncentives chainId now fetch vault incl).foldl
        (fun g2 p => p.2.foldl (fun g3 q => addReward g3 p.1 q.1 q.2) g2) g) u tok =
        aget2D g u tok + aget2D (processVaultIncentives chainId now fetch vault incl) u tok := by
      rw [mergeFold_eq, aget2D_foldAdd,
        sum_flatPairs (processVault_good chainId now fetch vault incl)]
    rw [ih _ (foldMerge_good hgood), hmerge, aget2D_processVault]
    omega

/-- Membership in the flattened output, for well-formed maps. -/
theorem mem_flatten_iff {G : List (String × List (String × Int))} (hg : Good2 G)
    {u tok : String} {a : Int} :
    (u, tok, a) ∈ flattenRewards G ↔
      (∃ toks, aget G u = some toks ∧ aget toks tok = some a) ∧ 0 < a := by
  induction G with
  | nil =>
    simp [flattenRewards, aget]
  | cons q rest ih =>
    rcases q with ⟨u2, toks⟩
    have hkey : u2 ∉ keysOf rest := by
      have := hg.1
      rw [keysOf, List.map_cons, List.nodup_cons] at this
      exact this.1
    have htoks : (keysOf toks).Nodup := hg.2 (u2, toks) (List.mem_cons.mpr (Or.inl rfl))
    have hrest : Good2 rest := by
      refine ⟨?_, fun p hp => hg.2 p (List.mem_cons.mpr (Or.inr hp))⟩
      have := hg.1
      rw [keysOf, List.map_cons, List.nodup_cons] at this
      exact this.2
    show (u, tok, a) ∈ (toks.filter (fun q => decide (0 < q.2))).map
        (fun q => (u2, q.1, q.2)) ++ flattenRewards rest ↔ _
    rw [List.mem_append]
    have hhead : (u, tok, a) ∈ (toks.filter (fun q => decide (0 < q.2))).map
        (fun q => (u2, q.1, q.2)) ↔ u2 = u ∧ (tok, a) ∈ toks ∧ 0 < a := by
      rw [List.mem_map]
      constructor
      · rintro ⟨x, hx, heq⟩
        rw [List.mem_filter, decide_eq_true_eq] at hx
        have h1 : u2 = u := congrArg Prod.fst heq
        have h2 : x.1 = tok := congrArg (fun p => p.2.1) heq
        have h3 : x.2 = a := congrArg (fun p => p.2.2) heq
        exact ⟨h1, by rw [← h2, ← h3]; exact hx.1, h3 ▸ hx.2⟩
      · rintro ⟨rfl, hmem, hpos⟩
        exact ⟨(tok, a), List.mem_filter.mpr ⟨hmem, by simpa using hpos⟩, rfl⟩
    by_cases hu : u2 = u
    · subst hu
      have hagetcons : aget ((u2, toks) :: rest) u2 = some toks := by simp [aget]
      rw [hhead]
      constructor
      · rintro (⟨_, hmem, hpos⟩ | htail)
        · exact ⟨⟨toks, hagetcons, (mem_iff_aget htoks).mp hmem⟩, hpos⟩
        · exfalso
          obtain ⟨⟨toks2, hget2, _⟩, _⟩ := (ih hrest).mp htail
          rw [aget_none_iff.mpr hkey] at hget2
          cases hget2
      · rintro ⟨⟨toks2, hget2, hta⟩, hpos⟩
        rw [hagetcons] at hget2
        cases hget2
        exact Or.inl ⟨rfl, (mem_iff_aget htoks).mpr hta, hpos⟩
    · have hagetcons : aget ((u2, toks) :: rest) u = aget rest u := by simp [aget, hu]
      rw [hhead, hagetcons, ih hrest]
      constructor
      · rintro (⟨h1, _⟩ | h)
        · exact absurd h1 hu
        · exact h
      · intro h
        exact Or.inr h

theorem flatten_fst {G : List (String × List (String × Int))} {p : String × String × Int}
    (h : p ∈ flattenRewards G) : p.1 ∈ keysOf G := by
  induction G with
  | nil => cases h
  | cons q rest ih =>
    rcases q with ⟨u2, toks⟩
    rcases List.mem_append.mp h with hl | hr
    · obtain ⟨x, _, rfl⟩ := List.mem_map.mp hl
      exact List.mem_cons.mpr (Or.inl rfl)
    · exact List.mem_cons.mpr (Or.inr (ih hr))

theorem flatten_pairs_nodup {G : List (String × List (String × Int))} (hg : Good2 G) :
    ((flattenRewards G).map (fun x => (x.1, x.2.1))).Nodup := by
  induction G with
  | nil => exact List.nodup_nil
  | cons q rest ih =>
    rcases q with ⟨u2, toks⟩
    have hkey : u2 ∉ keysOf rest := by
      have := hg.1
      rw [keysOf, List.map_cons, List.nodup_cons] at this
      exact this.1
    have htoks : (keysOf toks).Nodup := hg.2 (u2, toks) (List.mem_cons.mpr (Or.inl rfl))
    have hrest : Good2 rest := by
      refine ⟨?_, fun p hp => hg.2 p (List.mem_cons.mpr (Or.inr hp))⟩
      have := hg.1
      rw [keysOf, List.map_cons, List.nodup_cons] at this
      exact this.2
    show (((toks.filter (fun q => decide (0 < q.2))).map (fun q => (u2, q.1, q.2)) ++
        flattenRewards rest).map (fun x => (x.1, x.2.1))).Nodup
    rw [List.map_append, List.nodup_append]
    refine ⟨?_, ih hrest, ?_⟩
    · rw [List.map_map]
      have hfn : ((fun x : String × String × Int => (x.1, x.2.1)) ∘
          (fun q : String × Int => (u2, q.1, q.2))) =
          (fun t : String => (u2, t)) ∘ Prod.fst := by
        funext q
        rfl
      rw [hfn, ← List.map_map]
      refine List.Nodup.map ?_ ?_
      · intro x y hxy
        exact congrArg Prod.snd hxy
      · exact ((List.filter_sublist toks).map Prod.fst).nodup htoks
    · intro p hp hp2
      rw [List.mem_map] at hp hp2
      obtain ⟨x, hx, rfl⟩ := hp
      obtain ⟨y, hy, heq⟩ := hp2
      obtain ⟨x2, _, rfl⟩ := List.mem_map.mp hx
      have h1 : y.1 = u2 := by
        have := congrArg Prod.fst heq
        simpa using this
      exact hkey (h1 ▸ flatten_fst hy)

/-- C3 (amended): aggregation produces exactly one output entry per
`(account, token)` pair with a positive total, the total being the sum over
all processed vaults and non-future incentives of that incentive's
contribution — where an incentive contributes the floor-converted amount of
the account's **last** positive-rewards leaderboard record (later records
for the same account overwrite earlier ones within one incentive), and
contributes nothing when its token cannot be resolved. -/
theorem C3_aggregation_per_pair (chainId now : Nat) (fetch : FetchOracle)
    (vaults : List VaultData) (includeDeprecated : Bool) (u tok : String) (a : Int) :
    ((u, tok, a) ∈ transformVaultDataToRewards chainId now fetch vaults includeDeprecated ↔
      a = specAmount chainId now fetch vaults includeDeprecated u tok ∧ 0 < a) ∧
    ((transformVaultDataToRewards chainId now fetch vaults includeDeprecated).map
      (fun x => (x.1, x.2.1))).Nodup := by
  have hg := transform_global_good chainId now fetch vaults includeDeprecated
  have hval : aget2D (vaults.foldl
      (fun g vault =>
        (processVaultIncentives chainId now fetch vault includeDeprecated).foldl
          (fun g2 p => p.2.foldl (fun g3 q => addReward g3 p.1 q.1 q.2) g2)
          g)
      []) u tok = specAmount chainId now fetch vaults includeDeprecated u tok := by
    rw [aget2D_vaultsFold chainId now fetch includeDeprecated u tok vaults []
      ⟨List.nodup_nil, fun p hp => (List.not_mem_nil p hp).elim⟩]
    unfold specAmount
    simp [aget2D, aget]
  constructor
  · show (u, tok, a) ∈ flattenRewards _ ↔ _
    rw [mem_flatten_iff hg]
    constructor
    · rintro ⟨⟨toks, hgt, hta⟩, hpos⟩
      refine ⟨?_, hpos⟩
      rw [← hval]
      unfold aget2D
      rw [hgt]
      simp [hta]
    · rintro ⟨ha, hpos⟩
      refine ⟨?_, hpos⟩
      rcases hgt : aget (vaults.foldl
          (fun g vault =>
            (processVaultIncentives chainId now fetch vault includeDeprecated).foldl
              (fun g2 p => p.2.foldl (fun g3 q => addReward g3 p.1 q.1 q.2) g2)
              g)
          []) u with _ | toks
      · exfalso
        unfold aget2D at hval
        rw [hgt] at hval
        simp [aget] at hval
        omega
      · rcases hta : aget toks tok with _ | b
        · exfalso
          unfold aget2D at hval
          rw [hgt] at hval
          simp only [Option.getD_some] at hval
          rw [hta] at hval
          simp at hval
          omega
        · refine ⟨toks, hgt, ?_⟩
          have hb : b = a := by
            unfold aget2D at hval
            rw [hgt] at hval
            simp only [Option.getD_some] at hval
            rw [hta] at hval
            simp at hval
            omega
          rw [hta, hb]
  · exact flatten_pairs_nodup hg

theorem exceptOk_false {α : Type} {x : Except String α} (h : exceptOk x = false) :
    ∀ v, x ≠ .ok v := by
  intro v hc
  rw [hc] at h
  cases h

/-- Skipping semantics of unresolvable tokens: the incentive fold ignores
incentives whose token does not resolve. -/
theorem incFold_skip_unresolvable (chainId now : Nat) (fetch : FetchOracle) (va : String) :
    ∀ (incs : List Incentive) (agg : List (String × List (String × Int))),
      incs.foldl
        (fun agg inc =>
          if now < inc.startTimestamp then agg
          else
            match processIncentive chainId fetch va inc with
            | .error _ => agg
            | .ok incentiveRewards =>
              incentiveRewards.foldl (fun agg2 p => addReward agg2 p.1 p.2.1 p.2.2) agg)
        agg =
      (incs.filter (fun inc => exceptOk (getTokenAddress chainId inc.token))).foldl
        (fun agg inc =>
          if now < inc.startTimestamp then agg
          else
            match processIncentive chainId fetch va inc with
            | .error _ => agg
            | .ok incentiveRewards =>
              incentiveRewards.foldl (fun agg2 p => addReward agg2 p.1 p.2.1 p.2.2) agg)
        agg := by
  intro incs
  induction incs with
  | nil => intro agg; rfl
  | cons inc rest ih =>
    intro agg
    rw [List.foldl_cons, List.filter_cons]
    by_cases hok : exceptOk (getTokenAddress chainId inc.token) = true
    · rw [if_pos hok, List.foldl_cons, ih]
    · rw [if_neg hok]
      have herr : ∃ e, processIncentive chainId fetch va inc = .error e := by
        unfold processIncentive
        rcases hta : getTokenAddress chainId inc.token with e | ta
        · exact ⟨e, rfl⟩
        · exfalso
          rw [hta] at hok
          exact hok rfl
      obtain ⟨e, he⟩ := herr
      have hstep : (if now < inc.startTimestamp then agg
          else
            match processIncentive chainId fetch va inc with
            | .error _ => agg
            | .ok incentiveRewards =>
              incentiveRewards.foldl (fun agg2 p => addReward agg2 p.1 p.2.1 p.2.2) agg) =
          agg := by
        by_cases hfut : now < inc.startTimestamp
        · rw [if_pos hfut]
        · rw [if_neg hfut, he]
      refine Eq.trans ?_ (ih agg)
      rw [hstep]

/-- C4 (amended): an unresolvable token/chain mapping is *not* fatal to the
aggregation run — the incentive is skipped (its error is caught per
incentive) and the run completes exactly as if the unresolvable incentives
had been absent from the input. -/
theorem C4_unresolvable_token_is_skipped (chainId now : Nat) (fetch : FetchOracle)
    (vaults : List VaultData) (includeDeprecated : Bool) :
    transformVaultDataToRewards chainId now fetch vaults includeDeprecated =
      transformVaultDataToRewards chainId now fetch
        (vaults.map (fun v =>
          { v with incentives :=
              v.incentives.filter (fun inc => exceptOk (getTokenAddress chainId inc.token)) }))
        includeDeprecated := by
  unfold transformVaultDataToRewards
  congr 1
  have hvault : ∀ v : VaultData,
      processVaultIncentives chainId now fetch
        { v with incentives :=
            v.incentives.filter (fun inc => exceptOk (getTokenAddress chainId inc.token)) }
        includeDeprecated =
      processVaultIncentives chainId now fetch v includeDeprecated := by
    intro v
    unfold processVaultIncentives
    by_cases hdep : (v.isDeprecated && !includeDeprecated) = true
    · rw [if_pos hdep, if_pos hdep]
    · rw [if_neg hdep, if_neg hdep]
      exact (incFold_skip_unresolvable chainId now fetch v.address v.incentives []).symm
  generalize ([] : List (String × List (String × Int))) = g0
  induction vaults generalizing g0 with
  | nil => rfl
  | cons v rest ih =>
    rw [List.map_cons, List.foldl_cons, List.foldl_cons, hvault v]
    exact ih _

/-! ### The address-validation claim -/

/-- C7 (amended): address validation accepts exactly the strings that start
with `0x` and have 40 further characters — with no hexadecimal check on those
characters — and normalizes an accepted address to lower case. -/
theorem C7_validateAddress_prefix_length_only (s : JStr) :
    ((∃ out, validateAddress s = .ok out) ↔
      ∃ rest, s = '0' :: 'x' :: rest ∧ rest.length = 40) ∧
    ∀ out, validateAddress s = .ok out → out = s.map Char.toLower :=
  ⟨validateAddress_ok_iff s, fun _ h => validateAddress_ok_val h⟩

/-- A 42-character `0x`-prefixed string whose tail is not hexadecimal. -/
def zAddr : JStr := jstr "0xzzzzzzzzzzzzzzzzzzzzzzzzzzzzzzzzzzzzzzzz"

/-- C7 counterexample: the all-`z` address is accepted by `validateAddress`
(and returned unchanged, being already lower case) although none of its 40
tail characters is a hexadecimal digit. -/
theorem C7_counterexample :
    validateAddress zAddr = .ok zAddr ∧ ((zAddr.drop 2).all isHexChar) = false :=
  ⟨by rfl, by decide⟩

/-! ### Concrete instances for the tree-service claims -/

/-- A lower-case account address. -/
def wAcctA : JStr := jstr "0xaaaaaaaaaaaaaaaaaaaaaaaaaaaaaaaaaaaaaaaa"

/-- A second lower-case account address. -/
def wAcctB : JStr := jstr "0xbbbbbbbbbbbbbbbbbbbbbbbbbbbbbbbbbbbbbbbb"

/-- A lower-case token address. -/
def wTokC : JStr := jstr "0xcccccccccccccccccccccccccccccccccccccccc"

/-- The first account address with its letters upper-cased: a different
string with the same case-normalized form. -/
def wAcctAUpper : JStr := jstr "0xAAAAAAAAAAAAAAAAAAAAAAAAAAAAAAAAAAAAAAAA"

/-- A two-entry reward batch. -/
def wRewards : List RewardData :=
  [⟨wAcctA, wTokC, jstr "100"⟩, ⟨wAcctB, wTokC, jstr "50"⟩]

/-- The same batch in the opposite iteration order. -/
def wRewards2 : List RewardData :=
  [⟨wAcctB, wTokC, jstr "50"⟩, ⟨wAcctA, wTokC, jstr "100"⟩]

/-- A placeholder snapshot for the error branch of concrete builds. -/
def emptySnapshot : Snapshot :=
  ⟨"", .leaf [] [] 0, none, [], 0, "", 0, none, none, none, []⟩

/-- The snapshot `createMerkleTree` builds from `wRewards`. -/
def wSnap : Snapshot :=
  match createMerkleTree wRewards "root1" 5 none with
  | .ok s => s
  | .error _ => emptySnapshot

/-- The snapshot built from the permuted batch. -/
def wSnap2 : Snapshot :=
  match createMerkleTree wRewards2 "root1" 5 none with
  | .ok s => s
  | .error _ => emptySnapshot

/-- A store holding the concrete snapshot. -/
def wStore1 : List Snapshot := [wSnap]

/-- The first persisted leaf row of the concrete snapshot. -/
def wEntry : MerkleEntry := wSnap.entries.headD ⟨"", [], [], [], [], 0⟩

/-- C1 counterexample: querying `validateProof` with the stored account's
letter case altered — a string different from the one stored in the leaf —
still returns `true`, because both addresses are case-normalized before the
leaf hash is recomputed. -/
theorem C1_counterexample :
    ∃ e ∈ wSnap.entries,
      validateProof wStore1 wAcctAUpper e.tokenAddress e.amount e.proof "root1" = true ∧
      wAcctAUpper ≠ e.account := by decide

/-- C1 witness: the stored data of a concrete leaf row verifies. -/
theorem C1_witness :
    validateProof wStore1 wEntry.account wEntry.tokenAddress wEntry.amount wEntry.proof
      "root1" = true :=
  (C1_validateProof_soundness wRewards "root1" 5 none wSnap wStore1 "root1"
    (by rfl) (by rfl) (by decide) wEntry (by decide)).1

/-- C2 witness: totals and recipient count of the concrete snapshot. -/
theorem C2_witness :
    (∀ r ∈ wRewards,
      aget wSnap.totalRewards (r.token.map Char.toLower) =
        some (((wSnap.entries.filter
            (fun e => decide (e.tokenAddress = r.token.map Char.toLower))).map
            (fun e => parseDigits e.amount)).sum)) ∧
    wSnap.recipientCount = wSnap.entries.length :=
  C2_snapshot_totals_and_recipient_count wRewards "root1" 5 none wSnap (by rfl)

/-- C5 witness: the two iteration orders of the concrete batch yield the same
root and the same leaf rows. -/
theorem C5_witness : wSnap2.root = wSnap.root ∧ wSnap2.entries = wSnap.entries :=
  C5_createMerkleTree_deterministic wRewards wRewards2 "root1" 5 none wSnap wSnap2
    (List.Perm.swap _ _ _) (by rfl) (by rfl)

/-- A reward entry with the invalid amount `"0"`. -/
def wBadReward : RewardData := ⟨wAcctA, wTokC, jstr "0"⟩

/-- C6 witness: a batch holding a zero-amount entry is rejected. -/
theorem C6_witness :
    exceptOk (createMerkleTree [wBadReward] "root1" 5 none) = false :=
  C6_createMerkleTree_rejects_invalid [wBadReward] "root1" 5 none wBadReward
    (by decide) (Or.inr (Or.inr (by decide)))

/-- A hand-written active snapshot with no entries. -/
def wSnap8 : Snapshot :=
  ⟨"r8", .leaf [] [] 0, none, [], 0, "active", 10, none, none, none, []⟩

/-- A store holding only the active snapshot. -/
def wStore8 : List Snapshot := [wSnap8]

/-- C8 witness: resolution and not-found behaviour of `getProof` on the
concrete one-snapshot store, queried without a root id. -/
theorem C8_witness :
    (resolveSnap wStore8 none = none → getProof wStore8 wAcctA wTokC none = .ok none) ∧
    (∀ rid s, (none : Option String) = some rid → resolveSnap wStore8 none = some s →
      s ∈ wStore8 ∧ s.id = rid) ∧
    (∀ s, (none : Option String) = none → resolveSnap wStore8 none = some s →
      s ∈ wStore8 ∧ s.status = "active" ∧
        ∀ s2 ∈ wStore8, s2.status = "active" → s2.createdAt ≤ s.createdAt) ∧
    ((none : Option String) = none → (∃ s ∈ wStore8, s.status = "active" ∧ 0 < s.createdAt) →
      ∃ s, resolveSnap wStore8 none = some s) ∧
    (∀ s, resolveSnap wStore8 none = some s →
      (∀ e ∈ s.entries,
        ¬(e.account.map Char.toLower = wAcctA ∧ e.tokenAddress.map Char.toLower = wTokC)) →
      getProof wStore8 wAcctA wTokC none = .ok none) :=
  C8_getProof_resolution_and_not_found wStore8 wAcctA wTokC none wAcctA wTokC
    (by rfl) (by rfl)

/-- C10 witness: the three empty-result cases of `getAccountProofs` on the
concrete store. -/
theorem C10_witness :
    (∀ rid, (∀ s ∈ wStore8, s.id ≠ rid) →
      getAccountProofs wStore8 wAcctA (some rid) = .ok []) ∧
    ((∀ s ∈ wStore8, s.status ≠ "active") → getAccountProofs wStore8 wAcctA none = .ok []) ∧
    (∀ rootId s, resolveSnap wStore8 rootId = some s →
      (∀ e ∈ s.entries, e.account.map Char.toLower ≠ wAcctA) →
      getAccountProofs wStore8 wAcctA rootId = .ok []) :=
  C10_getAccountProofs_empty_not_error wStore8 wAcctA wAcctA (by rfl)

/-! ### Concrete instances for the aggregation claims -/

/-- The MGV token address of the static table. -/
def mgvAddr : String := "0x177E14e8ec24BaBa77B08d96053C08Bf7F37AB49"

/-- A leaderboard listing the same user twice within one incentive. -/
def cx3Fetch : FetchOracle := fun _ _ _ _ _ =>
  [⟨1, "u1", "v1", 2, 0⟩, ⟨2, "u1", "v1", 1, 0⟩]

/-- An already-started MGV incentive. -/
def cx3Inc : Incentive := ⟨"v1", 0, 10, 0, 0, "MGV"⟩

/-- A non-deprecated vault carrying the one incentive. -/
def cx3Vault : VaultData := ⟨false, "v1", [cx3Inc]⟩

theorem conv_one : convRewards 1 = 10 ^ 18 := by
  unfold convRewards
  norm_num

theorem conv_two : convRewards 2 = 2 * 10 ^ 18 := by
  unfold convRewards
  norm_num

/-- C3 counterexample: one incentive whose leaderboard lists the same account
twice, with display rewards 2 then 1.  The aggregation emits only the
floor-converted amount of the *last* record (`1e18`) — the per-incentive
`Map.set` overwrites the earlier record — not the sum over all of the
account's records (`3e18`) the claim demands. -/
theorem C3_counterexample :
    transformVaultDataToRewards 8453 5 cx3Fetch [cx3Vault] true =
      [("u1", mgvAddr, 10 ^ 18)] ∧
    convRewards 2 + convRewards 1 = 3 * 10 ^ 18 ∧
    ("u1", mgvAddr, (3 * 10 ^ 18 : Int)) ∉
      transformVaultDataToRewards 8453 5 cx3Fetch [cx3Vault] true := by
  have h1 : (0:ℚ) < 1 := by norm_num
  have h2 : (0:ℚ) < 2 := by norm_num
  have hpos : decide ((0:ℤ) < convRewards 1) = true := by
    rw [conv_one]; decide
  have hmain : transformVaultDataToRewards 8453 5 cx3Fetch [cx3Vault] true =
      [("u1", mgvAddr, convRewards 1)] := by
    simp [transformVaultDataToRewards, processVaultIncentives, processIncentive,
      getTokenAddress, TOKEN_ADDRESSES, aget, aset, addReward, flattenRewards,
      cx3Fetch, cx3Vault, cx3Inc, mgvAddr, h1, h2, hpos]
  refine ⟨by rw [hmain, conv_one], ?_, ?_⟩
  · rw [conv_one, conv_two]
    norm_num
  · rw [hmain, conv_one]
    decide

/-- A one-record leaderboard with display rewards 1. -/
def cx4Fetch : FetchOracle := fun _ _ _ _ _ => [⟨1, "u1", "v1", 1, 0⟩]

/-- An incentive whose token symbol is not in the static table. -/
def cx4IncBad : Incentive := ⟨"v1", 0, 10, 0, 0, "FOO"⟩

/-- A resolvable MGV incentive next to it. -/
def cx4IncGood : Incentive := ⟨"v1", 0, 10, 0, 0, "MGV"⟩

/-- A vault carrying both incentives. -/
def cx4Vault : VaultData := ⟨false, "v1", [cx4IncBad, cx4IncGood]⟩

/-- C4 counterexample: a vault whose first incentive has the unresolvable
token symbol `"FOO"` next to a resolvable MGV incentive.  The run completes
and produces the MGV rewards — a partial result — instead of failing, so an
unresolvable token mapping is not fatal to the aggregation run. -/
theorem C4_counterexample :
    transformVaultDataToRewards 8453 5 cx4Fetch [cx4Vault] true =
      [("u1", mgvAddr, 10 ^ 18)] ∧
    ∀ a, getTokenAddress 8453 "FOO" ≠ .ok a := by
  have h1 : (0:ℚ) < 1 := by norm_num
  have hpos : decide ((0:ℤ) < convRewards 1) = true := by
    rw [conv_one]; decide
  have hfoo : getTokenAddress 8453 "FOO" = .error "Unknown token symbol for chain" := by
    rfl
  have hmain : transformVaultDataToRewards 8453 5 cx4Fetch [cx4Vault] true =
      [("u1", mgvAddr, convRewards 1)] := by
    simp [transformVaultDataToRewards, processVaultIncentives, processIncentive,
      getTokenAddress, TOKEN_ADDRESSES, aget, aset, addReward, flattenRewards,
      cx4Fetch, cx4Vault, cx4IncBad, cx4IncGood, mgvAddr, h1, hpos]
  refine ⟨by rw [hmain, conv_one], ?_⟩
  intro a h
  rw [hfoo] at h
  cases h

end MgvRewards
